import Mathlib

/-!
Verification development for the LSM-tree storage engine of this repository
(skip-list memtable, bloom filter, SSTable with sparse index, per-level
SSTable manager, leveled compaction, LSM facade).

Shallow embedding conventions:
* JavaScript strings are Lean `String`s; `charCodeAt` is modelled by the
  code point of the character (identical for the ASCII keys used in all
  concrete runs).
* JavaScript 32-bit signed integer coercion (`| 0`, `<<`, `^`) is modelled
  on `Int` with explicit reduction modulo `2 ^ 32`.
* The tombstone value (`null` in the source) is `Option.none`; live values
  are `Option.some`.
* Wall-clock readings (`Date.now()`, `performance.now()`) are modelled by an
  oracle function `Nat → Nat` consumed through a counter; fields that hold
  only display data (elapsed-millisecond strings, visualization step lists,
  comparison counters, `createdAt` ages) are omitted.
* A JavaScript runtime error (the `iterators[min.iteratorIndex]` access in
  `kWayMerge` can read past the end of the iterator array when an empty
  SSTable precedes a non-empty one) is modelled as `Option.none`.
-/

namespace LSM

/-- Keys are byte-comparable strings, compared with the lexicographic string
order, matching the JavaScript `<` on strings for the ASCII keys used here. -/
abbrev Key := String

/-- Stored values; the source stores arbitrary values, concrete runs use
strings. -/
abbrev Val := String

/-- Record as stored in memtable snapshots and SSTables: key, value or
tombstone (`none`), and the timestamp captured at write time. -/
structure Entry where
  key : Key
  value : Option Val
  timestamp : Nat
deriving DecidableEq

/-- Placeholder entry used as the default for out-of-range list reads; the
source would read `undefined` there, and all verified call sites stay in
range. -/
def dummyEntry : Entry := ⟨"", none, 0⟩

/-- Reduction of an integer into the signed 32-bit range, as performed by the
JavaScript `| 0` coercion and by the bitwise operators. -/
def toInt32 (x : Int) : Int := (x + 2 ^ 31) % 2 ^ 32 - 2 ^ 31

/-- JavaScript `x << k`: coerce to signed 32 bits, multiply by `2 ^ k`, wrap. -/
def shl32 (x : Int) (k : Nat) : Int := toInt32 (toInt32 x * 2 ^ k)

/-- Unsigned 32-bit pattern of an integer. -/
def toUInt32n (x : Int) : Nat := (x % 2 ^ 32).toNat

/-- JavaScript `a ^ b` on numbers: both operands are coerced to 32 bits and
xor-ed as bit patterns. -/
def xor32 (a b : Int) : Int := toInt32 (Int.ofNat (Nat.xor (toUInt32n a) (toUInt32n b)))

/-- Code units of a key, as read by `charCodeAt`. -/
def charCodes (s : String) : List Nat := s.toList.map Char.toNat

/-- Lexicographic strict order on code-unit sequences, as used by the
JavaScript `<` on strings. -/
def codeLt : List Nat → List Nat → Bool
  | _ :: _, [] => false
  | [], [] => false
  | [], _ :: _ => true
  | a :: as, b :: bs => if a < b then true else if b < a then false else codeLt as bs

/-- JavaScript `a < b` on key strings. -/
def keyLt (a b : Key) : Bool := codeLt (charCodes a) (charCodes b)

/-- JavaScript `a <= b` (equivalently `a >= b` with the arguments swapped) on
key strings: the negation of the reversed strict comparison, as evaluated by
the JavaScript relational operators on strings. -/
def keyLe (a b : Key) : Bool := ! keyLt b a

/-- Accumulator loop of `BloomFilter.hash1` (multiplicative hash with
`hash = ((hash << 5) - hash + c) | 0`). -/
def hash1Acc (cs : List Nat) : Int :=
  cs.foldl (fun h c => toInt32 (shl32 h 5 - h + Int.ofNat c)) 0

/-- `BloomFilter.hash1`: absolute value of the accumulator, reduced modulo the
bit-array size. -/
def hash1 (size : Nat) (key : Key) : Nat := (hash1Acc (charCodes key)).natAbs % size

/-- Accumulator loop of `BloomFilter.hash2` (FNV-1a variant: xor then
`hash += (hash<<1)+(hash<<4)+(hash<<7)+(hash<<8)+(hash<<24)`, the final sum
kept exact as JavaScript keeps it in a float64). -/
def hash2Acc (cs : List Nat) : Int :=
  cs.foldl
    (fun h c =>
      let hx := xor32 h (Int.ofNat c)
      hx + shl32 hx 1 + shl32 hx 4 + shl32 hx 7 + shl32 hx 8 + shl32 hx 24)
    2166136261

/-- `BloomFilter.hash2`: absolute value of the accumulator modulo the size. -/
def hash2 (size : Nat) (key : Key) : Nat := (hash2Acc (charCodes key)).natAbs % size

/-- Bloom filter state: bit-array size `m`, probe count `k`, one `Bool` per
bit position (the source packs eight positions per byte of a `Uint8Array`;
byte-and-bit index map bijectively onto the flat position used here, and
out-of-range reads and writes are no-ops in both). -/
structure BloomFilter where
  size : Nat
  numHashes : Nat
  bits : List Bool
  elementsAdded : Nat
deriving DecidableEq

/-- Number of bit positions backed by the byte array `Uint8Array(⌈m/8⌉)`. -/
def bloomBitLen (size : Nat) : Nat := 8 * ((size + 7) / 8)

/-- Bit-array size for `n` expected elements at the fixed target
false-positive rate 0.01. The source computes
`Math.ceil(-(n * Math.log(0.01)) / Math.log(2) ** 2)` in floating point;
`-ln(0.01)/ln(2)² = 9.58506…` is approximated here by the rational
`958506/100000`, which agrees with the source on every table size arising in
this development; no claim depends on the exact value, only on positivity
for `n ≥ 1`. -/
def bloomSizeOf (n : Nat) : Nat := (958506 * n + 99999) / 100000

/-- Probe count `Math.ceil((m / n) * Math.log(2))`, with `ln 2 = 0.693147…`
approximated by `693147/1000000`. For `n = 0` the source computes `NaN`,
which makes the probe loop run zero times; `0` reproduces that behavior. -/
def bloomHashesOf (m n : Nat) : Nat :=
  if n = 0 then 0 else (m * 693147 + n * 1000000 - 1) / (n * 1000000)

/-- `new BloomFilter(n, 0.01)`: derived size, derived probe count, all bits
clear. -/
def bloomNew (n : Nat) : BloomFilter :=
  let m := bloomSizeOf n
  { size := m
    numHashes := bloomHashesOf m n
    bits := List.replicate (bloomBitLen m) false
    elementsAdded := 0 }

/-- `BloomFilter.getHashes`: double hashing, `(h1 + i * h2) mod m` for
`i < k`. Both seed hashes are non-negative, so the source's final
`Math.abs` is the identity. -/
def BloomFilter.getHashes (bf : BloomFilter) (key : Key) : List Nat :=
  let h1 := hash1 bf.size key
  let h2 := hash2 bf.size key
  (List.range bf.numHashes).map (fun i => (h1 + i * h2) % bf.size)

/-- `BloomFilter.setBit`. -/
def BloomFilter.setBit (bf : BloomFilter) (idx : Nat) : BloomFilter :=
  { bf with bits := bf.bits.set idx true }

/-- `BloomFilter.getBit`. -/
def BloomFilter.getBit (bf : BloomFilter) (idx : Nat) : Bool :=
  bf.bits.getD idx false

/-- `BloomFilter.add`: set every probe bit, count the insertion. -/
def BloomFilter.add (bf : BloomFilter) (key : Key) : BloomFilter :=
  let upd := (bf.getHashes key).foldl (fun b h => b.setBit h) bf
  { upd with elementsAdded := upd.elementsAdded + 1 }

/-- `BloomFilter.contains`, reduced to its `mightExist` flag: every probe bit
is set (the source's early exit on the first clear bit does not change the
flag). -/
def BloomFilter.contains (bf : BloomFilter) (key : Key) : Bool :=
  (bf.getHashes key).all (fun h => bf.getBit h)

/-- `BloomFilter.getMemorySize`: byte length of the bit array. -/
def BloomFilter.getMemorySize (bf : BloomFilter) : Nat := (bf.size + 7) / 8

/-- Comparator used by the SSTable constructor's defensive sort: order entries
by key. The source comparator returns 0 on equal keys, and the engine only
ever sorts lists with pairwise distinct keys, so any sort agreeing with this
relation produces the same list. -/
def keyLE (a b : Entry) : Prop := keyLe a.key b.key = true

instance : DecidableRel keyLE := fun a b => by
  unfold keyLE; infer_instance

/-- Defensive sort performed by the `SSTable` constructor. -/
def sortEntries (entries : List Entry) : List Entry := List.insertionSort keyLE entries

/-- Strictly increasing keys — the record-list invariant of a constructed
SSTable with pairwise distinct keys (the spec's invariant 1). -/
def keyStrictSorted (es : List Entry) : Prop :=
  List.Pairwise (fun a b => keyLt a.key b.key = true) es

/-- Positions visited by the sparse-index loop `for (i = 0; i < len; i += step)`,
with structural fuel (`len` iterations always suffice for `step = 10`). -/
def stridePosGo (len step : Nat) : Nat → Nat → List Nat
  | 0, _ => []
  | fuel + 1, i => if i < len then i :: stridePosGo len step fuel (i + step) else []

/-- `SSTable.buildSparseIndex`: every `step`-th key with its position, plus the
last key when the length is not a multiple of `step`. -/
def buildSparseIndex (entries : List Entry) (step : Nat) : List (Key × Nat) :=
  let base := (stridePosGo entries.length step entries.length 0).map
    (fun i => ((entries.getD i dummyEntry).key, i))
  if entries.length % step ≠ 0 then
    base ++ [((entries.getD (entries.length - 1) dummyEntry).key, entries.length - 1)]
  else base

/-- Length of `JSON.stringify(value)` for the values stored here: `null`
serializes to `"null"` (4 characters), a plain string to itself in quotes
(escape sequences do not occur in the keys and values of this development). -/
def jsonStringLen (v : Option Val) : Nat :=
  match v with
  | none => 4
  | some s => s.length + 2

/-- `SSTable.calculateSize`: per-entry UTF-16 key and serialized-value bytes
plus fixed metadata, plus bloom-filter bytes, plus 24 bytes per sparse-index
entry. -/
def calculateSize (entries : List Entry) (bf : BloomFilter) (sidx : List (Key × Nat)) : Nat :=
  entries.foldl (fun acc e => acc + 2 * e.key.length + 2 * jsonStringLen e.value + 16) 0
    + bf.getMemorySize + sidx.length * 24

/-- `SSTable.buildBloomFilter`: a filter sized for the record count at target
false-positive rate 0.01, with every key added. -/
def buildBloomFilter (entries : List Entry) : BloomFilter :=
  entries.foldl (fun bf e => bf.add e.key) (bloomNew entries.length)

/-- Immutable sorted table. The source's `createdAt` wall-clock field is
omitted (never read by the engine); ids are the numeric counter behind the
`sstable-N` name strings. -/
structure SSTable where
  id : Nat
  level : Nat
  entries : List Entry
  bloomFilter : BloomFilter
  sparseIndex : List (Key × Nat)
  size : Nat
  keyRange : Option (Key × Key)
deriving DecidableEq

/-- `new SSTable(id, level, entries)`: sort defensively, build the bloom
filter and sparse index, record size and key range. The constructor performs
no emptiness check; an empty input yields a degenerate table with no entries
and `keyRange` null. -/
def mkSSTable (id level : Nat) (entries0 : List Entry) : SSTable :=
  let entries := sortEntries entries0
  let bf := buildBloomFilter entries
  let sidx := buildSparseIndex entries 10
  { id := id
    level := level
    entries := entries
    bloomFilter := bf
    sparseIndex := sidx
    size := calculateSize entries bf sidx
    keyRange :=
      match entries with
      | [] => none
      | e :: _ => some (e.key, (entries.getLastD dummyEntry).key) }

/-- Fueled core of `SSTable.binarySearch` on the inclusive integer range
`[left, right]`; returns the hit position and value. `right` is an `Int`
because the source range can start as `entries.length - 1 = -1` on an empty
table and `mid - 1` can reach `-1`. Fuel `entries.length + 1` always covers
the range sizes used by `get`. -/
def binarySearchGo (entries : List Entry) (key : Key) :
    Nat → Int → Int → Option (Nat × Option Val)
  | 0, _, _ => none
  | fuel + 1, left, right =>
    if left ≤ right then
      let mid := ((left + right) / 2).toNat
      let midE := entries.getD mid dummyEntry
      if midE.key = key then some (mid, midE.value)
      else if keyLt key midE.key then binarySearchGo entries key fuel left (mid - 1)
      else binarySearchGo entries key fuel (mid + 1) right
    else none

/-- `SSTable.binarySearch` with the standard fuel. -/
def binarySearch (entries : List Entry) (key : Key) (left right : Int) :
    Option (Nat × Option Val) :=
  binarySearchGo entries key (entries.length + 1) left right

/-- Observable part of an `SSTable.get` result: found flag, value when found,
and whether the bloom filter decided the miss. -/
structure GetResult where
  found : Bool
  value : Option Val
  bloomFilterSaved : Bool
deriving DecidableEq

/-- Sparse-index narrowing loop of `SSTable.get`: the first adjacent index
pair with `index[i].key ≤ key < index[i+1].key`, if any. -/
def narrowGo (key : Key) : List (Key × Nat) → Option (Nat × Nat)
  | (k1, p1) :: (k2, p2) :: rest =>
    if keyLe k1 key && keyLt key k2 then some (p1, p2) else narrowGo key ((k2, p2) :: rest)
  | _ => none

/-- `SSTable.get`: bloom filter first (miss tagged `bloomFilterSaved = true`),
then binary search on the sparse-index-narrowed range (miss tagged
`bloomFilterSaved = false`). -/
def SSTable.get (t : SSTable) (key : Key) : GetResult :=
  if ¬ t.bloomFilter.contains key then
    { found := false, value := none, bloomFilterSaved := true }
  else
    let range : Int × Int :=
      match narrowGo key t.sparseIndex with
      | some (p1, p2) => ((p1 : Int), (p2 : Int))
      | none => (0, (t.entries.length : Int) - 1)
    match binarySearch t.entries key range.1 range.2 with
    | some (_, v) => { found := true, value := v, bloomFilterSaved := false }
    | none => { found := false, value := none, bloomFilterSaved := false }

/-- `SSTable.containsKeyInRange`: false on an empty table, else a range check
on the stored `[min, max]`. -/
def SSTable.containsKeyInRange (t : SSTable) (key : Key) : Bool :=
  match t.keyRange with
  | some (mn, mx) => keyLe mn key && keyLe key mx
  | none => false

/-- `SSTable.scan`: linear search for the first key `≥ startKey` (position 0
if none exists, as in the source), then collect until a key exceeds
`endKey`. -/
def SSTable.scan (t : SSTable) (startKey endKey : Key) : List Entry :=
  let startPos :=
    match t.entries.findIdx? (fun e => keyLe startKey e.key) with
    | some i => i
    | none => 0
  (t.entries.drop startPos).takeWhile (fun e => keyLe e.key endKey)

/-- `SSTable.getAllEntries` (a fresh copy in the source). -/
def SSTable.getAllEntries (t : SSTable) : List Entry := t.entries

/-- Per-level table store: the source's `Map` from level to table array,
modelled as an association list with `Map.set` semantics, plus the monotone
id counter. -/
structure SSTableManager where
  levels : List (Nat × List SSTable)
  nextId : Nat
deriving DecidableEq

/-- Fresh manager (`new SSTableManager()`). -/
def SSTableManager.new : SSTableManager := { levels := [], nextId := 1 }

/-- `Map.get(level)` with the source's `|| []` default. -/
def SSTableManager.getLevel (m : SSTableManager) (l : Nat) : List SSTable :=
  match m.levels.find? (fun p => p.1 = l) with
  | some p => p.2
  | none => []

/-- `Map.set(level, tables)`: replace in place when the key exists, append a
new binding otherwise. -/
def setLevelAssoc (levels : List (Nat × List SSTable)) (l : Nat) (ts : List SSTable) :
    List (Nat × List SSTable) :=
  if levels.any (fun p => p.1 = l) then
    levels.map (fun p => if p.1 = l then (l, ts) else p)
  else levels ++ [(l, ts)]

/-- `SSTableManager.addSSTable`: push onto the level's array, creating the
level binding if absent. -/
def SSTableManager.addSSTable (m : SSTableManager) (l : Nat) (t : SSTable) : SSTableManager :=
  { m with levels := setLevelAssoc m.levels l (m.getLevel l ++ [t]) }

/-- `SSTableManager.createSSTable`: allocate the next id, construct the table,
insert it. -/
def SSTableManager.createSSTable (m : SSTableManager) (l : Nat) (entries : List Entry) :
    SSTable × SSTableManager :=
  let t := mkSSTable m.nextId l entries
  (t, SSTableManager.addSSTable { m with nextId := m.nextId + 1 } l t)

/-- `SSTableManager.clearLevel`: `Map.set(level, [])`. -/
def SSTableManager.clearLevel (m : SSTableManager) (l : Nat) : SSTableManager :=
  { m with levels := setLevelAssoc m.levels l [] }

/-- `SSTableManager.clear`. -/
def SSTableManager.clear (_ : SSTableManager) : SSTableManager := SSTableManager.new

/-- Observable part of an `SSTableManager.search` result (the search-path
list kept for visualization is omitted). -/
structure MgrSearchResult where
  found : Bool
  value : Option Val
deriving DecidableEq

/-- Inner loop of `SSTableManager.search` over one level's table array, in
array order (L0 arrays are oldest-first: `addSSTable` appends). Tables at
levels `≥ 1` whose range does not contain the key are skipped. Returns the
first hit's value. -/
def searchLevelTables (key : Key) (level : Nat) : List SSTable → Option (Option Val)
  | [] => none
  | t :: rest =>
    if level > 0 ∧ ¬ t.containsKeyInRange key then searchLevelTables key level rest
    else
      let r := t.get key
      if r.found then some r.value else searchLevelTables key level rest

/-- Outer loop of `SSTableManager.search` over the level keys in ascending
order. -/
def searchLevels (m : SSTableManager) (key : Key) : List Nat → MgrSearchResult
  | [] => { found := false, value := none }
  | l :: rest =>
    match searchLevelTables key l (m.getLevel l) with
    | some v => { found := true, value := v }
    | none => searchLevels m key rest

/-- `SSTableManager.search`: levels ascending (`Array.from(keys()).sort`),
within a level the table array in stored order. -/
def SSTableManager.search (m : SSTableManager) (key : Key) : MgrSearchResult :=
  searchLevels m key (List.insertionSort (fun a b => a ≤ b) (m.levels.map Prod.fst))

/-- Element of the k-way merge min-heap: record fields plus the originating
`iteratorIndex` as recorded by the source (the index of the SSTable in the
merge input array, not the index in the compacted iterator array). -/
structure HeapElem where
  key : Key
  value : Option Val
  timestamp : Nat
  iterIdx : Nat
deriving DecidableEq

/-- Placeholder heap element for out-of-range reads (all verified call sites
stay in range). -/
def dummyElem : HeapElem := ⟨"", none, 0, 0⟩

/-- Swap two heap slots. -/
def heapSwap (heap : List HeapElem) (i j : Nat) : List HeapElem :=
  (heap.set i (heap.getD j dummyElem)).set j (heap.getD i dummyElem)

/-- `MinHeap.bubbleUp`, fueled: stop at the root or when the slot's key is
not below its parent's key (the source breaks on `key >= parent.key`). -/
def bubbleUpGo : Nat → List HeapElem → Nat → List HeapElem
  | 0, heap, _ => heap
  | fuel + 1, heap, index =>
    if index = 0 then heap
    else
      let parent := (index - 1) / 2
      if keyLe (heap.getD parent dummyElem).key (heap.getD index dummyElem).key then heap
      else bubbleUpGo fuel (heapSwap heap index parent) parent

/-- `MinHeap.insert`: push, then bubble the last slot up. -/
def heapInsert (heap : List HeapElem) (e : HeapElem) : List HeapElem :=
  bubbleUpGo (heap.length + 2) (heap ++ [e]) heap.length

/-- `MinHeap.bubbleDown`, fueled: pick the smallest of slot, left child and
right child (strict comparisons, left checked first), swap and continue. -/
def bubbleDownGo : Nat → List HeapElem → Nat → List HeapElem
  | 0, heap, _ => heap
  | fuel + 1, heap, index =>
    let n := heap.length
    let lc := 2 * index + 1
    let rc := 2 * index + 2
    let s1 := if lc < n ∧ keyLt (heap.getD lc dummyElem).key (heap.getD index dummyElem).key
      then lc else index
    let s2 := if rc < n ∧ keyLt (heap.getD rc dummyElem).key (heap.getD s1 dummyElem).key
      then rc else s1
    if s2 = index then heap
    else bubbleDownGo fuel (heapSwap heap index s2) s2

/-- `MinHeap.extractMin`: empty gives nothing; a singleton pops; otherwise the
root is replaced by the popped last element and bubbled down. -/
def extractMin (heap : List HeapElem) : Option HeapElem × List HeapElem :=
  match heap with
  | [] => (none, [])
  | [e] => (some e, [])
  | e :: _ =>
    let lastE := heap.getLastD dummyElem
    let heap2 := heap.dropLast.set 0 lastE
    (some e, bubbleDownGo (heap.length + 1) heap2 0)

/-- Per-source iterator of `kWayMerge`. -/
structure KIter where
  sstableId : Nat
  entries : List Entry
  currentIndex : Nat
deriving DecidableEq

/-- One step of the iterator and initial-heap construction loop of
`kWayMerge`: skip an empty table, otherwise append its iterator and push its
first record with the table's position in the input array as
`iteratorIndex`. -/
def kwInitStep (acc : List KIter × List HeapElem) (p : Nat × SSTable) :
    List KIter × List HeapElem :=
  match p.2.getAllEntries with
  | [] => acc
  | e :: _ =>
    (acc.1 ++ [⟨p.2.id, p.2.getAllEntries, 0⟩],
      heapInsert acc.2 ⟨e.key, e.value, e.timestamp, p.1⟩)

/-- Iterator and initial-heap construction loop of `kWayMerge`: one iterator
per non-empty input table, and the first record of each pushed with the
table's position in the input array as `iteratorIndex`. -/
def kwInit (sstables : List SSTable) : List KIter × List HeapElem :=
  sstables.enum.foldl kwInitStep ([], [])

/-- Running state of the `kWayMerge` extraction loop. -/
structure MergeLoopState where
  heap : List HeapElem
  iters : List KIter
  merged : List Entry
  lastKey : Option Key
  dups : Nat
deriving DecidableEq

/-- Emission step of the `kWayMerge` extraction loop: on a fresh key emit the
record unless it is a tombstone and remember the key, otherwise count a
removed duplicate; `heap2` is the heap left by the extraction. -/
def kwEmit (st : MergeLoopState) (mn : HeapElem) (heap2 : List HeapElem) :
    MergeLoopState :=
  if st.lastKey ≠ some mn.key then
    { st with
      heap := heap2
      merged :=
        if mn.value ≠ none then st.merged ++ [⟨mn.key, mn.value, mn.timestamp⟩]
        else st.merged
      lastKey := some mn.key }
  else { st with heap := heap2, dups := st.dups + 1 }

/-- Iterator-advance step of the extraction loop: look up the extracted
element's recorded iterator index (`none` models the source's runtime error
when it points past the compacted iterator array), bump that iterator, and
push its next record if any. -/
def kwAdvance (emitted : MergeLoopState) (mn : HeapElem) : Option MergeLoopState :=
  match emitted.iters.get? mn.iterIdx with
  | none => none
  | some it =>
    let it2 : KIter := { it with currentIndex := it.currentIndex + 1 }
    let iters2 := emitted.iters.set mn.iterIdx it2
    let heap3 :=
      if it2.currentIndex < it2.entries.length then
        let ne := it2.entries.getD it2.currentIndex dummyEntry
        heapInsert emitted.heap ⟨ne.key, ne.value, ne.timestamp, mn.iterIdx⟩
      else emitted.heap
    some { emitted with iters := iters2, heap := heap3 }

/-- Fueled extraction loop of `kWayMerge`: extract the minimum, run the
emission step, then the iterator advance. `none` propagates the
iterator-array runtime error (which can happen when an empty table precedes a
non-empty one in the input). -/
def kwLoop : Nat → MergeLoopState → Option (List Entry × Nat)
  | 0, st => if st.heap.isEmpty then some (st.merged, st.dups) else none
  | fuel + 1, st =>
    match extractMin st.heap with
    | (none, _) => some (st.merged, st.dups)
    | (some mn, heap2) =>
      match kwAdvance (kwEmit st mn heap2) mn with
      | none => none
      | some st2 => kwLoop fuel st2

/-- Observable part of a `kWayMerge` result (timing, heap-comparison count
and visualization steps omitted). -/
structure MergeOutcome where
  entries : List Entry
  duplicatesRemoved : Nat
  inputSSTables : Nat
  inputEntries : Nat
deriving DecidableEq

/-- `Compaction.kWayMerge`. The fuel `inputEntries + 1` always covers the
loop (each iteration consumes one heap element, and at most one element per
input record is ever inserted), so `none` occurs exactly at the source's
runtime error. -/
def kWayMerge (sstables : List SSTable) : Option MergeOutcome :=
  let st0 := kwInit sstables
  let total := sstables.foldl (fun a t => a + t.entries.length) 0
  match kwLoop (total + 1)
      { heap := st0.2, iters := st0.1, merged := [], lastKey := none, dups := 0 } with
  | some r => some ⟨r.1, r.2, sstables.length, total⟩
  | none => none

/-- `Compaction.rangesOverlap`, including the source's falsy check on the
bounds: a `null` bound (empty table) and also an empty-string bound are falsy
in JavaScript and make the check return false. -/
def rangesOverlap (r1 r2 : Option (Key × Key)) : Bool :=
  match r1, r2 with
  | some (mn1, mx1), some (mn2, mx2) =>
    if mn1 = "" ∨ mx1 = "" ∨ mn2 = "" ∨ mx2 = "" then false
    else ! (keyLt mx1 mn2 || keyLt mx2 mn1)
  | _, _ => false

/-- Inner predicate of `Compaction.findOverlappingSSTables`: does a target
table overlap any source table. -/
def overlapsAny (sources : List SSTable) (t : SSTable) : Bool :=
  sources.any (fun s => rangesOverlap s.keyRange t.keyRange)

/-- `Compaction.findOverlappingSSTables`: the target tables overlapping some
source table, in target order (the source pushes each such table once,
breaking out of the inner loop). -/
def findOverlappingSSTables (sources targets : List SSTable) : List SSTable :=
  targets.filter (overlapsAny sources)

/-- Compaction bookkeeping entry (wall-clock fields and the per-merge stats
blob omitted; `writeAmplification` is the stored quotient's inputs). -/
structure CompactionRecord where
  id : Nat
  sourceLevel : Nat
  targetLevel : Nat
  inputSSTables : Nat
  outputSSTables : Nat
  inputBytes : Nat
  outputBytes : Nat
  duplicatesRemoved : Nat
deriving DecidableEq

/-- Counters and history of the `Compaction` engine. -/
structure CompactionState where
  history : List CompactionRecord
  totalCompactions : Nat
  totalBytesCompacted : Nat
deriving DecidableEq

/-- Outcome record of `compactLevel` (success flag and failure message). -/
structure CompactOutcome where
  success : Bool
  message : String
deriving DecidableEq

/-- `Compaction.compactLevel`: fail on an empty source level without touching
anything; otherwise merge the source tables with the overlapping target
tables, clear the source level, rebuild the target level as the
non-overlapping tables followed by one new table holding the merge output
(created unconditionally, even when the output is empty), and record the
compaction. `none` models the merge loop's runtime error. -/
def compactLevel (mgr : SSTableManager) (cs : CompactionState)
    (sourceLevel targetLevel : Nat) :
    Option (SSTableManager × CompactionState × CompactOutcome) :=
  let sourceSSTables := mgr.getLevel sourceLevel
  if sourceSSTables.isEmpty then
    some (mgr, cs, ⟨false, "No SSTables at level " ++ toString sourceLevel⟩)
  else
    let targetSSTables := mgr.getLevel targetLevel
    let overlapping := findOverlappingSSTables sourceSSTables targetSSTables
    let sstablesToMerge := sourceSSTables ++ overlapping
    match kWayMerge sstablesToMerge with
    | none => none
    | some mr =>
      let inputBytes := sstablesToMerge.foldl (fun a t => a + t.size) 0
      let outputBytes := mr.entries.length * 100
      let mgr1 := mgr.clearLevel sourceLevel
      let remainingTarget := targetSSTables.filter (fun t => ¬ overlapsAny sourceSSTables t)
      let mgr2 := mgr1.clearLevel targetLevel
      let mgr3 := remainingTarget.foldl (fun m t => m.addSSTable targetLevel t) mgr2
      let mgr4 := (mgr3.createSSTable targetLevel mr.entries).2
      let record : CompactionRecord :=
        { id := cs.totalCompactions
          sourceLevel := sourceLevel
          targetLevel := targetLevel
          inputSSTables := sstablesToMerge.length
          outputSSTables := 1
          inputBytes := inputBytes
          outputBytes := outputBytes
          duplicatesRemoved := mr.duplicatesRemoved }
      some (mgr4,
        { history := cs.history ++ [record]
          totalCompactions := cs.totalCompactions + 1
          totalBytesCompacted := cs.totalBytesCompacted + inputBytes },
        ⟨true, ""⟩)

/-- Per-level auto-compaction threshold (`{0: 4, 1: 10, 2: 100}` with the
`|| 1000` fallback). -/
def compactionThreshold (level : Nat) : Nat :=
  match level with
  | 0 => 4
  | 1 => 10
  | 2 => 100
  | _ => 1000

/-- `Compaction.shouldCompact`. -/
def shouldCompact (mgr : SSTableManager) (level : Nat) : Bool :=
  (mgr.getLevel level).length ≥ compactionThreshold level

/-- Loop of `Compaction.runAutoCompaction` over the level list. -/
def runAutoGo : List Nat → SSTableManager × CompactionState →
    Option (SSTableManager × CompactionState)
  | [], st => some st
  | l :: rest, (mgr, cs) =>
    if shouldCompact mgr l then
      match compactLevel mgr cs l (l + 1) with
      | none => none
      | some (mgr2, cs2, _) => runAutoGo rest (mgr2, cs2)
    else runAutoGo rest (mgr, cs)

/-- `Compaction.runAutoCompaction`: evaluate levels 0, 1, 2 in that order
(levels `≥ 3` are never evaluated by the source loop `level < 3`). -/
def runAutoCompaction (st : SSTableManager × CompactionState) :
    Option (SSTableManager × CompactionState) :=
  runAutoGo [0, 1, 2] st

/-- Skip-list node: key, value-or-tombstone, timestamp, and the node's level
(its forward array has `height + 1` slots). Nodes are kept in level-0
(key) order; the level-`i` forward pointer of the structure is the next node
of height `≥ i`, which is exactly the pointer structure the source's splice
maintains. -/
structure SLNode where
  key : Key
  value : Option Val
  timestamp : Nat
  height : Nat
deriving DecidableEq

/-- Maximum skip-list level (`new SkipList(16, 0.5)` in the LSM constructor). -/
def maxSkipLevel : Nat := 16

/-- Placeholder node for out-of-range list reads (never hit at verified call
sites). -/
def dummySLNode : SLNode := ⟨"", none, 0, 0⟩

/-- Forward pointer at level `i` from position `p` (position 0 is the header,
position `j + 1` sits at node `j`): the first node index `≥ p` whose height
is at least `i`. -/
def slFwd (nodes : List SLNode) (i p : Nat) : Option Nat :=
  match (nodes.drop p).findIdx? (fun n => decide (i ≤ n.height)) with
  | some j => some (p + j)
  | none => none

/-- Fueled walk at one level of the skip-list descent: advance while the
forward node's key is below the target. Fuel `nodes.length + 1` always
suffices because the position strictly increases. -/
def slAdvanceGo (nodes : List SLNode) (key : Key) (i : Nat) :
    Nat → Nat → Nat
  | 0, p => p
  | fuel + 1, p =>
    match slFwd nodes i p with
    | some j =>
      if keyLt (nodes.getD j dummySLNode).key key then slAdvanceGo nodes key i fuel (j + 1)
      else p
    | none => p

/-- Walk at level `i` with standard fuel. -/
def slAdvance (nodes : List SLNode) (key : Key) (i p : Nat) : Nat :=
  slAdvanceGo nodes key i (nodes.length + 1) p

/-- Descent of `search`/`insert`/`delete` from level `i` down to level 0,
threading the current position. -/
def slDescendGo (nodes : List SLNode) (key : Key) : Nat → Nat → Nat
  | p, 0 => slAdvance nodes key 0 p
  | p, i + 1 => slDescendGo nodes key (slAdvance nodes key (i + 1) p) i

/-- Full descent from the list's current level. The result is the position of
the first node whose key is not below the target (`update[0].forward[0]` in
the source). -/
def slDescend (nodes : List SLNode) (key : Key) (lvl : Nat) : Nat :=
  slDescendGo nodes key 0 lvl

/-- `SkipList.search`, reduced to its found flag and value: descend, then
compare the level-0 forward node's key. -/
def slSearch (nodes : List SLNode) (lvl : Nat) (key : Key) : Bool × Option Val :=
  let p := slDescend nodes key lvl
  match nodes.get? p with
  | some n => if n.key = key then (true, n.value) else (false, none)
  | none => (false, none)

/-- `SkipList.insert`: on an existing key overwrite value and timestamp in
place; otherwise splice a new node (height sampled by `randomLevel`, always
in `[0, maxLevel]`, supplied here as the oracle draw clamped to the maximum)
at the descent position and raise the list level if needed. Returns the new
node list, the new list level, and whether it was an update. -/
def slInsert (nodes : List SLNode) (lvl : Nat) (key : Key) (value : Option Val)
    (h ts : Nat) : List SLNode × Nat × Bool :=
  let p := slDescend nodes key lvl
  match nodes.get? p with
  | some n =>
    if n.key = key then
      (nodes.set p { n with value := value, timestamp := ts }, lvl, true)
    else
      let nl := min h maxSkipLevel
      (nodes.insertIdx p ⟨key, value, ts, nl⟩, max lvl nl, false)
  | none =>
    let nl := min h maxSkipLevel
    (nodes.insertIdx p ⟨key, value, ts, nl⟩, max lvl nl, false)

/-- `SkipList.getAllEntries`: level-0 traversal, key order. -/
def slGetAllEntries (nodes : List SLNode) : List Entry :=
  nodes.map (fun n => ⟨n.key, n.value, n.timestamp⟩)

/-- Whole-engine state: memtable (node list, list level), table manager,
compaction counters, flush threshold, and the oracle counters for the random
level source and the wall clock. -/
structure EngineState where
  memNodes : List SLNode
  memLevel : Nat
  mgr : SSTableManager
  comp : CompactionState
  memtableThreshold : Nat
  randCtr : Nat
  tsCtr : Nat
deriving DecidableEq

/-- `new LSMTree(threshold)`. -/
def initState (threshold : Nat) : EngineState :=
  { memNodes := []
    memLevel := 0
    mgr := SSTableManager.new
    comp := ⟨[], 0, 0⟩
    memtableThreshold := threshold
    randCtr := 0
    tsCtr := 0 }

/-- Observable part of an `LSMTree.get` result. -/
structure LsmGetResult where
  found : Bool
  value : Option Val
deriving DecidableEq

/-- `LSMTree.flushMemtable`: no-op on an empty memtable, otherwise snapshot
the sorted entries into a new L0 SSTable and clear the memtable. -/
def flushMemtable (s : EngineState) : EngineState :=
  if s.memNodes.isEmpty then s
  else
    let entries := slGetAllEntries s.memNodes
    let mgr2 := (s.mgr.createSSTable 0 entries).2
    { s with memNodes := [], memLevel := 0, mgr := mgr2 }

/-- Memtable-insert step shared by `put` and `delete`: one oracle timestamp is
consumed always, one random draw only when a new node is created. -/
def memInsert (rand tsf : Nat → Nat) (s : EngineState) (key : Key)
    (value : Option Val) : EngineState :=
  let h := rand s.randCtr
  let ts := tsf s.tsCtr
  let r := slInsert s.memNodes s.memLevel key value h ts
  { s with
    memNodes := r.1
    memLevel := r.2.1
    randCtr := if r.2.2 then s.randCtr else s.randCtr + 1
    tsCtr := s.tsCtr + 1 }

/-- Steps 1 and 2 of `LSMTree.put`: memtable insert, then the
threshold-triggered flush. -/
def putPre (rand tsf : Nat → Nat) (s : EngineState) (key : Key) (v : Val) : EngineState :=
  let s1 := memInsert rand tsf s key (some v)
  if s1.memNodes.length ≥ s1.memtableThreshold then flushMemtable s1 else s1

/-- `LSMTree.put`: memtable insert, threshold-triggered flush, then
auto-compaction, all before the call returns. -/
def lsmPut (rand tsf : Nat → Nat) (s : EngineState) (key : Key) (v : Val) :
    Option EngineState :=
  match runAutoCompaction ((putPre rand tsf s key v).mgr, (putPre rand tsf s key v).comp) with
  | none => none
  | some (mgr2, cs2) => some { putPre rand tsf s key v with mgr := mgr2, comp := cs2 }

/-- `LSMTree.delete`: insert a tombstone, flush at the threshold. The source
runs no auto-compaction on this path. -/
def lsmDelete (rand tsf : Nat → Nat) (s : EngineState) (key : Key) : EngineState :=
  let s1 := memInsert rand tsf s key none
  if s1.memNodes.length ≥ s1.memtableThreshold then flushMemtable s1 else s1

/-- `LSMTree.get`: memtable probe first, any hit (including a tombstone hit)
returned as found with the stored value; otherwise the manager search. -/
def lsmGet (s : EngineState) (key : Key) : LsmGetResult :=
  let r := slSearch s.memNodes s.memLevel key
  if r.1 then { found := true, value := r.2 }
  else
    let sr := s.mgr.search key
    { found := sr.found, value := if sr.found then sr.value else none }

/-- `LSMTree.compact`: manual trigger of the compaction engine. -/
def lsmCompact (s : EngineState) (sourceLevel targetLevel : Nat) : Option EngineState :=
  match compactLevel s.mgr s.comp sourceLevel targetLevel with
  | none => none
  | some (m2, c2, _) => some { s with mgr := m2, comp := c2 }

/-- `LSMTree.clear`. -/
def lsmClear (s : EngineState) : EngineState :=
  { initState s.memtableThreshold with randCtr := s.randCtr, tsCtr := s.tsCtr }

/-- Caller-visible operation alphabet (the `COMPACT l` command compacts level
`l` into `l + 1`). -/
inductive Op where
  | putOp (k : Key) (v : Val)
  | getOp (k : Key)
  | delOp (k : Key)
  | compactOp (l : Nat)
  | clearOp
deriving DecidableEq

/-- One engine step; `get` also produces its observation. -/
def stepOp (rand tsf : Nat → Nat) (s : EngineState) :
    Op → Option (EngineState × Option LsmGetResult)
  | .putOp k v => (lsmPut rand tsf s k v).map (fun s2 => (s2, none))
  | .getOp k => some (s, some (lsmGet s k))
  | .delOp k => some (lsmDelete rand tsf s k, none)
  | .compactOp l => (lsmCompact s l (l + 1)).map (fun s2 => (s2, none))
  | .clearOp => some (lsmClear s, none)

/-- Observable trace of a run: the found flag and value of every `get`, in
order, cut short where a step raises the merge loop's runtime error. -/
def runObs (rand tsf : Nat → Nat) : List Op → EngineState → List LsmGetResult
  | [], _ => []
  | op :: rest, s =>
    match stepOp rand tsf s op with
    | none => []
    | some (s2, obs) => obs.toList ++ runObs rand tsf rest s2

/-- Final state of a run (none if a step raised). -/
def applyOps (rand tsf : Nat → Nat) : List Op → EngineState → Option EngineState
  | [], s => some s
  | op :: rest, s =>
    match stepOp rand tsf s op with
    | none => none
    | some (s2, _) => applyOps rand tsf rest s2

/-- Zero oracle used for the concrete runs (height 0, timestamp 0 at every
draw). -/
def zeroOracle : Nat → Nat := fun _ => 0

/-- Erasure of the data an observer cannot see: timestamps. Used to state and
prove that observable results do not depend on the wall clock. -/
def eraseEntry (e : Entry) : Entry := { e with timestamp := 0 }

/-- Erasure on skip-list nodes: timestamps and the randomly sampled node
heights. -/
def eraseNode (n : SLNode) : SLNode := { n with timestamp := 0, height := 0 }

/-- Erasure on SSTables: record timestamps (all derived metadata of a
constructed table — bloom filter, sparse index, size, key range — depends
only on keys and values, as proved below). -/
def eraseTable (t : SSTable) : SSTable := { t with entries := t.entries.map eraseEntry }

/-- Erasure on the level map. -/
def eraseLevels (L : List (Nat × List SSTable)) : List (Nat × List SSTable) :=
  L.map (fun p => (p.1, p.2.map eraseTable))

/-- Erasure on the table manager. -/
def eraseMgr (m : SSTableManager) : SSTableManager := ⟨eraseLevels m.levels, m.nextId⟩

/-- Erasure on heap elements of the k-way merge. -/
def eraseElem (e : HeapElem) : HeapElem := { e with timestamp := 0 }

/-- Erasure on merge iterators. -/
def eraseIter (it : KIter) : KIter := { it with entries := it.entries.map eraseEntry }

/-- Erasure on the merge-loop state. -/
def eraseMergeState (st : MergeLoopState) : MergeLoopState :=
  { heap := st.heap.map eraseElem
    iters := st.iters.map eraseIter
    merged := st.merged.map eraseEntry
    lastKey := st.lastKey
    dups := st.dups }

/-- Erasure on the whole engine state: node heights, the skip-list level and
all timestamps are blanked; keys, values, order, counters and all derived
metadata remain. -/
def eraseState (s : EngineState) : EngineState :=
  { s with
    memNodes := s.memNodes.map eraseNode
    memLevel := 0
    mgr := eraseMgr s.mgr }

/-- Well-formedness of the memtable: node keys strictly increase in level-0
order. This is the standard skip-list invariant; it holds in every reachable
state and is preserved by every operation (proved below). -/
def memWF (s : EngineState) : Prop :=
  List.Pairwise (fun a b : SLNode => keyLt a.key b.key = true) s.memNodes

/-- Engine state reached by `delete k` under flush threshold 1 (level 0 holds
one single-tombstone SSTable); used by concrete witnesses. -/
def tombstoneState : EngineState :=
  (applyOps zeroOracle zeroOracle [Op.delOp "k"] (initState 1)).getD (initState 1)

/-- Engine state reached by `put a 1` under flush threshold 1; used by the C5
witness. -/
def c5WitnessState : EngineState :=
  (lsmPut zeroOracle zeroOracle (initState 1) "a" "1").getD (initState 1)

/-- Merge outcome of compacting the single-tombstone level 0 of
`tombstoneState` into level 1; used by the C8 witness. -/
def c8WitnessMerge : MergeOutcome :=
  (kWayMerge (tombstoneState.mgr.getLevel 0 ++
      findOverlappingSSTables (tombstoneState.mgr.getLevel 0)
        (tombstoneState.mgr.getLevel 1))).getD ⟨[], 0, 0, 0⟩

/-- C1. Recency fails on the code: with flush threshold 1, the run
`put k v1; put k v2; get k` leaves two L0 SSTables (the older holding `v1`,
the newer holding `v2`), and `get k` returns `v1`, the value of the first
write, not of the last write `v2` — `SSTableManager.search` iterates the L0
array in stored (oldest-first) order, although its own comments say
newest-first, so the first hit is the oldest record. -/
theorem c1_recency_code_bug :
    runObs zeroOracle zeroOracle
      [Op.putOp "k" "v1", Op.putOp "k" "v2", Op.getOp "k"] (initState 1) =
      [{ found := true, value := some "v1" }] ∧ ("v1" : Val) ≠ "v2" := by
  constructor
  · decide
  · decide

/-- C2. Delete does not mask on the code: after `put k v; delete k`, the
memtable holds the tombstone, and `LSMTree.get k` returns it as a found
result with value `null` (`found = true, value = none`) instead of the miss
the claim requires. -/
theorem c2_delete_masks_code_bug :
    runObs zeroOracle zeroOracle
      [Op.putOp "k" "v", Op.delOp "k", Op.getOp "k"] (initState 10) =
      [{ found := true, value := none }] := by
  decide

/-- C3. Compaction does not preserve the get mapping on the code: with flush
threshold 1, `delete k` flushes a single-tombstone L0 table; `get k` then
reports `found = true` (the surfaced tombstone). `compact(0,1)` drops the
tombstone from the merge output unconditionally, after which `get k` reports
`found = false` — the found flag changed across a compaction of a populated
source level. -/
theorem c3_compaction_equivalence_code_bug :
    runObs zeroOracle zeroOracle
      [Op.delOp "k", Op.getOp "k", Op.compactOp 0, Op.getOp "k"] (initState 1) =
      [{ found := true, value := none }, { found := false, value := none }] := by
  decide

/-- C4. Range disjointness fails at level 1 on the code: with flush threshold
1, `put m; compact(0,1)` places a table with range `[m, m]` at L1; then
`put a; put z; compact(0,1)` merges the two new L0 tables into one output
with range `[a, z]`. The L1 table `[m, m]` overlaps neither source table
individually, so `findOverlappingSSTables` retains it, yet it lies inside the
merged output's range: L1 ends with two tables whose ranges overlap. -/
theorem c4_range_disjointness_code_bug :
    (applyOps zeroOracle zeroOracle
        [Op.putOp "m" "vm", Op.compactOp 0, Op.putOp "a" "va", Op.putOp "z" "vz",
          Op.compactOp 0] (initState 1)).map
        (fun s => (s.mgr.getLevel 1).map (fun t => t.keyRange)) =
      some [some ("m", "m"), some ("a", "z")] ∧
    rangesOverlap (some ("m", "m")) (some ("a", "z")) = true := by
  constructor
  · decide
  · decide

/-- C5, counterexample. A flush triggered by `delete` does not trigger
auto-compaction: with flush threshold 1, after `put a; put b; put c` level 0
holds 3 tables; `delete d` flushes a fourth, reaching the level-0 threshold
`T[0] = 4`, yet the operation returns with level 0 still holding 4 tables and
level 1 empty — no compaction was performed, contradicting the claim that any
flush is followed by the ascending threshold sweep. -/
theorem c5_delete_flush_counterexample :
    (applyOps zeroOracle zeroOracle
        [Op.putOp "a" "1", Op.putOp "b" "2", Op.putOp "c" "3", Op.delOp "d"]
        (initState 1)).map
        (fun s => ((s.mgr.getLevel 0).length, (s.mgr.getLevel 1).length)) =
      some (4, 0) ∧ compactionThreshold 0 = 4 := by
  constructor
  · decide
  · decide

/-- C8, counterexample. A compaction whose merged stream is empty still
creates an output SSTable: with flush threshold 1, `delete k` flushes a
single-tombstone table to L0; `compact(0,1)` drops the tombstone, leaving
zero output records, removes the input from L0 — but `createSSTable` is
called unconditionally, so level 1 ends with one (empty) SSTable, not with
none as the claim states. -/
theorem c8_zero_output_counterexample :
    (applyOps zeroOracle zeroOracle [Op.delOp "k", Op.compactOp 0] (initState 1)).map
        (fun s => ((s.mgr.getLevel 0).length,
          (s.mgr.getLevel 1).map (fun t => t.entries.length))) =
      some (0, [0]) := by
  decide

/-- C9, counterexample. Constructing an SSTable from an empty record sequence
does not fail: the source constructor has no emptiness check, so
`new SSTable(id, level, [])` yields a degenerate table with no entries and a
null key range, and `createSSTable` stores it — refuting the claim that
construction fails exactly on empty input. -/
theorem c9_empty_construction_counterexample :
    (mkSSTable 1 0 []).entries = [] ∧ (mkSSTable 1 0 []).keyRange = none ∧
    ((SSTableManager.new.createSSTable 0 []).2.getLevel 0).length = 1 := by
  refine ⟨rfl, rfl, ?_⟩
  decide

/-- Helper: the level array stored by `setLevelAssoc` is found at its key. -/
theorem find?_map_update_self (l : Nat) (ts : List SSTable) :
    ∀ L : List (Nat × List SSTable), L.any (fun p => p.1 = l) = true →
      (L.map (fun p => if p.1 = l then (l, ts) else p)).find?
        (fun p => p.1 = l) = some (l, ts)
  | [], h => by simp at h
  | a :: rest, h => by
    by_cases ha : a.1 = l
    · simp [ha]
    · have hrest : rest.any (fun p => p.1 = l) = true := by simpa [ha] using h
      simpa [ha] using find?_map_update_self l ts rest hrest

/-- Helper: `setLevelAssoc` leaves other keys' bindings untouched. -/
theorem find?_map_update_ne (l l2 : Nat) (ts : List SSTable) (hne : l2 ≠ l) :
    ∀ L : List (Nat × List SSTable),
      (L.map (fun p => if p.1 = l then (l, ts) else p)).find? (fun p => p.1 = l2) =
        L.find? (fun p => p.1 = l2)
  | [] => by simp
  | a :: rest => by
    by_cases ha : a.1 = l
    · have h1 : ¬ ((l, ts).1 = l2) := fun h => hne h.symm
      have h2 : ¬ (a.1 = l2) := by rw [ha]; exact h1
      rw [List.map_cons, if_pos ha, List.find?_cons_of_neg _ (by simpa using h1),
        List.find?_cons_of_neg _ (by simpa using h2)]
      exact find?_map_update_ne l l2 ts hne rest
    · rw [List.map_cons, if_neg ha]
      by_cases hb : a.1 = l2
      · rw [List.find?_cons_of_pos _ (by simpa using hb),
          List.find?_cons_of_pos _ (by simpa using hb)]
      · rw [List.find?_cons_of_neg _ (by simpa using hb),
          List.find?_cons_of_neg _ (by simpa using hb)]
        exact find?_map_update_ne l l2 ts hne rest

/-- Helper: `find?` is `none` when no key matches. -/
theorem find?_none_of_any_false (l : Nat) (L : List (Nat × List SSTable))
    (h : L.any (fun p => p.1 = l) = false) :
    L.find? (fun p => p.1 = l) = none := by
  rw [List.find?_eq_none]
  intro x hx
  simp only [List.any_eq_false] at h
  exact h x hx

/-- Helper: reading the level just written by `setLevelAssoc`. -/
theorem find?_setLevelAssoc_self (L : List (Nat × List SSTable)) (l : Nat)
    (ts : List SSTable) :
    (setLevelAssoc L l ts).find? (fun p => p.1 = l) = some (l, ts) := by
  unfold setLevelAssoc
  by_cases hA : L.any (fun p => p.1 = l) = true
  · simp only [hA, if_true]
    exact find?_map_update_self l ts L hA
  · have hA2 : L.any (fun p => p.1 = l) = false := by
      cases h : L.any (fun p => p.1 = l)
      · rfl
      · exact absurd h hA
    simp only [hA2, Bool.false_eq_true, if_false, List.find?_append,
      find?_none_of_any_false l L hA2, Option.none_or]
    simp

/-- Helper: reading another level after `setLevelAssoc`. -/
theorem find?_setLevelAssoc_ne (L : List (Nat × List SSTable)) (l l2 : Nat)
    (ts : List SSTable) (hne : l2 ≠ l) :
    (setLevelAssoc L l ts).find? (fun p => p.1 = l2) = L.find? (fun p => p.1 = l2) := by
  unfold setLevelAssoc
  by_cases hA : L.any (fun p => p.1 = l) = true
  · simp only [hA, if_true]
    exact find?_map_update_ne l l2 ts hne L
  · have hA2 : L.any (fun p => p.1 = l) = false := by
      cases h : L.any (fun p => p.1 = l)
      · rfl
      · exact absurd h hA
    simp only [hA2, Bool.false_eq_true, if_false, List.find?_append]
    have : ¬ ((l, ts).1 = l2) := fun h => hne h.symm
    cases hL : L.find? (fun p => p.1 = l2) <;> simp [this]

/-- Helper: `getLevel` written through `find?`. -/
theorem getLevel_eq (m : SSTableManager) (l : Nat) :
    m.getLevel l = ((m.levels.find? (fun p => p.1 = l)).map Prod.snd).getD [] := by
  unfold SSTableManager.getLevel
  cases h : m.levels.find? (fun p => p.1 = l) <;> simp [h]

/-- Helper: `clearLevel` empties its level. -/
theorem getLevel_clearLevel_self (m : SSTableManager) (l : Nat) :
    (m.clearLevel l).getLevel l = [] := by
  rw [getLevel_eq]
  unfold SSTableManager.clearLevel
  simp [find?_setLevelAssoc_self]

/-- Helper: `clearLevel` leaves other levels untouched. -/
theorem getLevel_clearLevel_ne (m : SSTableManager) (l l2 : Nat) (hne : l2 ≠ l) :
    (m.clearLevel l).getLevel l2 = m.getLevel l2 := by
  rw [getLevel_eq, getLevel_eq]
  unfold SSTableManager.clearLevel
  simp [find?_setLevelAssoc_ne _ _ _ _ hne]

/-- Helper: `addSSTable` appends to its level. -/
theorem getLevel_addSSTable_self (m : SSTableManager) (l : Nat) (t : SSTable) :
    (m.addSSTable l t).getLevel l = m.getLevel l ++ [t] := by
  conv_lhs => rw [getLevel_eq]
  unfold SSTableManager.addSSTable
  simp [find?_setLevelAssoc_self]

/-- Helper: `addSSTable` leaves other levels untouched. -/
theorem getLevel_addSSTable_ne (m : SSTableManager) (l l2 : Nat) (t : SSTable)
    (hne : l2 ≠ l) :
    (m.addSSTable l t).getLevel l2 = m.getLevel l2 := by
  rw [getLevel_eq, getLevel_eq]
  unfold SSTableManager.addSSTable
  simp [find?_setLevelAssoc_ne _ _ _ _ hne]

/-- Helper: `addSSTable` keeps the id counter. -/
theorem nextId_addSSTable (m : SSTableManager) (l : Nat) (t : SSTable) :
    (m.addSSTable l t).nextId = m.nextId := rfl

/-- Helper: `clearLevel` keeps the id counter. -/
theorem nextId_clearLevel (m : SSTableManager) (l : Nat) :
    (m.clearLevel l).nextId = m.nextId := rfl

/-- Helper: folding `addSSTable` over a table list appends it to the level. -/
theorem getLevel_foldl_add_self (l : Nat) :
    ∀ (ts : List SSTable) (m : SSTableManager),
      (ts.foldl (fun m t => m.addSSTable l t) m).getLevel l = m.getLevel l ++ ts
  | [], m => by simp
  | t :: rest, m => by
    simp only [List.foldl_cons]
    rw [getLevel_foldl_add_self l rest (m.addSSTable l t), getLevel_addSSTable_self]
    simp

/-- Helper: folding `addSSTable` leaves other levels untouched. -/
theorem getLevel_foldl_add_ne (l l2 : Nat) (hne : l2 ≠ l) :
    ∀ (ts : List SSTable) (m : SSTableManager),
      (ts.foldl (fun m t => m.addSSTable l t) m).getLevel l2 = m.getLevel l2
  | [], m => rfl
  | t :: rest, m => by
    simp only [List.foldl_cons]
    rw [getLevel_foldl_add_ne l l2 hne rest (m.addSSTable l t),
      getLevel_addSSTable_ne _ _ _ _ hne]

/-- Helper: folding `addSSTable` keeps the id counter. -/
theorem nextId_foldl_add (l : Nat) :
    ∀ (ts : List SSTable) (m : SSTableManager),
      (ts.foldl (fun m t => m.addSSTable l t) m).nextId = m.nextId
  | [], m => rfl
  | t :: rest, m => by
    simp only [List.foldl_cons]
    rw [nextId_foldl_add l rest (m.addSSTable l t), nextId_addSSTable]

/-- Helper: `createSSTable` appends the freshly built table to its level. -/
theorem getLevel_createSSTable_self (m : SSTableManager) (l : Nat) (es : List Entry) :
    (m.createSSTable l es).2.getLevel l = m.getLevel l ++ [mkSSTable m.nextId l es] := by
  unfold SSTableManager.createSSTable
  rw [getLevel_addSSTable_self]
  rfl

/-- Helper: `createSSTable` leaves other levels untouched. -/
theorem getLevel_createSSTable_ne (m : SSTableManager) (l l2 : Nat) (es : List Entry)
    (hne : l2 ≠ l) :
    (m.createSSTable l es).2.getLevel l2 = m.getLevel l2 := by
  unfold SSTableManager.createSSTable
  rw [getLevel_addSSTable_ne _ _ _ _ hne]
  rfl

/-- Helper: shape of a successful `compactLevel` on a non-empty source level
with distinct levels: the merge succeeded, the source level is cleared, the
target level is the non-overlapping target tables followed by the single new
output table, and every other level is untouched. -/
theorem compactLevel_some_levels (mgr : SSTableManager) (cs : CompactionState)
    (sL tL : Nat) (mgr2 : SSTableManager) (cs2 : CompactionState) (oc : CompactOutcome)
    (hne : sL ≠ tL)
    (hsrc : (mgr.getLevel sL).isEmpty = false)
    (h : compactLevel mgr cs sL tL = some (mgr2, cs2, oc)) :
    ∃ mr, kWayMerge (mgr.getLevel sL ++
        findOverlappingSSTables (mgr.getLevel sL) (mgr.getLevel tL)) = some mr ∧
      mgr2.getLevel sL = [] ∧
      mgr2.getLevel tL =
        (mgr.getLevel tL).filter (fun t => ¬ overlapsAny (mgr.getLevel sL) t) ++
          [mkSSTable mgr.nextId tL mr.entries] ∧
      ∀ l, l ≠ sL → l ≠ tL → mgr2.getLevel l = mgr.getLevel l := by
  unfold compactLevel at h
  simp only [hsrc, Bool.false_eq_true, if_false] at h
  cases hm : kWayMerge (mgr.getLevel sL ++
      findOverlappingSSTables (mgr.getLevel sL) (mgr.getLevel tL)) with
  | none => rw [hm] at h; exact absurd h (by simp)
  | some mr =>
    rw [hm] at h
    simp only [Option.some.injEq, Prod.mk.injEq] at h
    obtain ⟨hmgr, _, _⟩ := h
    refine ⟨mr, rfl, ?_, ?_, ?_⟩
    · rw [← hmgr, getLevel_createSSTable_ne _ _ _ _ hne,
        getLevel_foldl_add_ne _ _ hne,
        getLevel_clearLevel_ne _ _ _ hne, getLevel_clearLevel_self]
    · rw [← hmgr, getLevel_createSSTable_self, getLevel_foldl_add_self,
        getLevel_clearLevel_self, nextId_foldl_add, nextId_clearLevel, nextId_clearLevel]
      simp
    · intro l hls hlt
      rw [← hmgr, getLevel_createSSTable_ne _ _ _ _ hlt,
        getLevel_foldl_add_ne _ _ hlt,
        getLevel_clearLevel_ne _ _ _ hlt, getLevel_clearLevel_ne _ _ _ hls]

/-- Helper: one step of the auto-compaction sweep leaves the processed level
strictly below its threshold and touches no level other than the processed
one and its successor. -/
theorem runAuto_step (l : Nat) (rest : List Nat) (mgr : SSTableManager)
    (cs : CompactionState) (out : SSTableManager × CompactionState)
    (h : runAutoGo (l :: rest) (mgr, cs) = some out) :
    ∃ mgrA csA, runAutoGo rest (mgrA, csA) = some out ∧
      (mgrA.getLevel l).length < compactionThreshold l ∧
      ∀ l2, l2 ≠ l → l2 ≠ l + 1 → mgrA.getLevel l2 = mgr.getLevel l2 := by
  unfold runAutoGo at h
  by_cases hs : shouldCompact mgr l = true
  · rw [if_pos hs] at h
    cases hc : compactLevel mgr cs l (l + 1) with
    | none => rw [hc] at h; exact absurd h (by simp)
    | some r =>
      obtain ⟨mgrA, csA, ocA⟩ := r
      rw [hc] at h
      have hsrc : (mgr.getLevel l).isEmpty = false := by
        have hlen : compactionThreshold l ≤ (mgr.getLevel l).length := by
          simpa [shouldCompact] using hs
        have hpos : 0 < compactionThreshold l := by
          unfold compactionThreshold; split <;> omega
        rcases hg : mgr.getLevel l with _ | ⟨a, restg⟩
        · rw [hg] at hlen; simp at hlen; omega
        · rfl
      obtain ⟨mr, hmr, h0, h1, hother⟩ :=
        compactLevel_some_levels mgr cs l (l + 1) mgrA csA ocA (by omega) hsrc hc
      refine ⟨mgrA, csA, h, ?_, fun l2 ha hb => hother l2 ha hb⟩
      rw [h0]
      have hpos : 0 < compactionThreshold l := by
        unfold compactionThreshold; split <;> omega
      simpa using hpos
  · rw [if_neg hs] at h
    refine ⟨mgr, cs, h, ?_, fun _ _ _ => rfl⟩
    have : ¬ (compactionThreshold l ≤ (mgr.getLevel l).length) := by
      simpa [shouldCompact] using hs
    omega

/-- Helper: after a successful auto-compaction sweep, levels 0, 1 and 2 are
strictly below their thresholds. -/
theorem runAuto_counts (mgr : SSTableManager) (cs : CompactionState)
    (mgr2 : SSTableManager) (cs2 : CompactionState)
    (h : runAutoCompaction (mgr, cs) = some (mgr2, cs2)) :
    (mgr2.getLevel 0).length < 4 ∧ (mgr2.getLevel 1).length < 10 ∧
      (mgr2.getLevel 2).length < 100 := by
  unfold runAutoCompaction at h
  obtain ⟨mgrA, csA, hA, hA0, _⟩ := runAuto_step 0 [1, 2] mgr cs (mgr2, cs2) h
  obtain ⟨mgrB, csB, hB, hB1, hBother⟩ := runAuto_step 1 [2] mgrA csA (mgr2, cs2) hA
  obtain ⟨mgrC, csC, hC, hC2, hCother⟩ := runAuto_step 2 [] mgrB csB (mgr2, cs2) hB
  have hfin : mgrC = mgr2 := by
    unfold runAutoGo at hC
    simp only [Option.some.injEq, Prod.mk.injEq] at hC
    exact hC.1
  subst hfin
  refine ⟨?_, ?_, hC2⟩
  · have e1 : mgrB.getLevel 0 = mgrA.getLevel 0 := hBother 0 (by omega) (by omega)
    have e2 : mgrC.getLevel 0 = mgrB.getLevel 0 := hCother 0 (by omega) (by omega)
    rw [e2, e1]
    simpa [compactionThreshold] using hA0
  · have e2 : mgrC.getLevel 1 = mgrB.getLevel 1 := hCother 1 (by omega) (by omega)
    rw [e2]
    simpa [compactionThreshold] using hB1

/-- C5, amended. After every `put` — whether or not it flushed — the engine
runs the ascending auto-compaction sweep over levels 0, 1, 2 before
returning, compacting each level whose SSTable count is at least its
threshold (`T[0]=4, T[1]=10, T[2]=100`), so the state a successful `put`
returns has every swept level strictly below its threshold. (The
counterexample shows the original claim false: a flush triggered by `delete`
runs no sweep at all, and levels `≥ 3` are never evaluated.) -/
theorem c5_put_auto_compaction_amended (rand tsf : Nat → Nat) (s : EngineState)
    (k : Key) (v : Val) (s2 : EngineState)
    (h : lsmPut rand tsf s k v = some s2) :
    (s2.mgr.getLevel 0).length < 4 ∧ (s2.mgr.getLevel 1).length < 10 ∧
      (s2.mgr.getLevel 2).length < 100 := by
  unfold lsmPut at h
  cases hr : runAutoCompaction
      ((putPre rand tsf s k v).mgr, (putPre rand tsf s k v).comp) with
  | none => rw [hr] at h; exact absurd h (by simp)
  | some p =>
    obtain ⟨mgr2, cs2⟩ := p
    rw [hr] at h
    simp only [Option.some.injEq] at h
    have hm : s2.mgr = mgr2 := by rw [← h]
    rw [hm]
    exact runAuto_counts _ _ _ _ hr

/-- C5, amended, witness: the amended theorem applied to the concrete run
`put a 1` from the empty engine with flush threshold 1. -/
theorem c5_put_auto_compaction_amended_witness :
    lsmPut zeroOracle zeroOracle (initState 1) "a" "1" = some c5WitnessState ∧
      ((c5WitnessState.mgr.getLevel 0).length < 4 ∧
        (c5WitnessState.mgr.getLevel 1).length < 10 ∧
        (c5WitnessState.mgr.getLevel 2).length < 100) :=
  ⟨by decide, c5_put_auto_compaction_amended zeroOracle zeroOracle (initState 1)
    "a" "1" c5WitnessState (by decide)⟩

/-- C8, amended. A compaction whose merged, deduplicated stream yields zero
records still removes the input SSTables from the source and target levels,
but it creates one empty output SSTable at the target level (the source calls
`createSSTable` on the merge output unconditionally), rather than producing
no output SSTable. -/
theorem c8_zero_output_amended (mgr : SSTableManager) (cs : CompactionState)
    (sL tL : Nat) (mgr2 : SSTableManager) (cs2 : CompactionState) (oc : CompactOutcome)
    (mr : MergeOutcome)
    (hne : sL ≠ tL)
    (hsrc : (mgr.getLevel sL).isEmpty = false)
    (h : compactLevel mgr cs sL tL = some (mgr2, cs2, oc))
    (hmr : kWayMerge (mgr.getLevel sL ++
      findOverlappingSSTables (mgr.getLevel sL) (mgr.getLevel tL)) = some mr)
    (hzero : mr.entries = []) :
    mgr2.getLevel sL = [] ∧
    mgr2.getLevel tL =
      (mgr.getLevel tL).filter (fun t => ¬ overlapsAny (mgr.getLevel sL) t) ++
        [mkSSTable mgr.nextId tL []] ∧
    (mkSSTable mgr.nextId tL []).entries = [] := by
  obtain ⟨mr2, hmr2, h0, h1, _⟩ := compactLevel_some_levels mgr cs sL tL mgr2 cs2 oc hne hsrc h
  have hsame : mr2 = mr := by
    rw [hmr] at hmr2
    exact (Option.some.injEq _ _ ▸ hmr2).symm
  refine ⟨h0, ?_, rfl⟩
  rw [h1, hsame, hzero]

/-- C8, amended, witness: the amended theorem applied to the concrete state
reached by `delete k` under flush threshold 1 (level 0 = one single-tombstone
table), compacting level 0 into level 1. -/
theorem c8_zero_output_amended_witness :
    (match compactLevel tombstoneState.mgr tombstoneState.comp 0 1 with
      | some (mgr2, _, _) =>
        mgr2.getLevel 0 = [] ∧
        mgr2.getLevel 1 =
          (tombstoneState.mgr.getLevel 1).filter
              (fun t => ¬ overlapsAny (tombstoneState.mgr.getLevel 0) t) ++
            [mkSSTable tombstoneState.mgr.nextId 1 []] ∧
        (mkSSTable tombstoneState.mgr.nextId 1 []).entries = []
      | none => False) := by
  cases hc : compactLevel tombstoneState.mgr tombstoneState.comp 0 1 with
  | none => exact absurd hc (by decide)
  | some r =>
    obtain ⟨mgr2, cs2, oc⟩ := r
    exact c8_zero_output_amended tombstoneState.mgr tombstoneState.comp 0 1 mgr2 cs2 oc
      c8WitnessMerge (by decide) (by decide) hc (by decide) (by decide)

/-- C9, amended. Constructing an SSTable never fails — the constructor has no
emptiness check, and the built table always carries exactly the input records
(sorted) — and a compaction on an empty source level returns the descriptive
failure `"No SSTables at level N"` with the manager, the compaction history
and the counters untouched. -/
theorem c9_error_semantics_amended (mgr : SSTableManager) (cs : CompactionState)
    (sL tL : Nat) (id level : Nat) (entries : List Entry)
    (h : mgr.getLevel sL = []) :
    compactLevel mgr cs sL tL =
      some (mgr, cs, ⟨false, "No SSTables at level " ++ toString sL⟩) ∧
    (mkSSTable id level entries).entries.length = entries.length := by
  constructor
  · unfold compactLevel
    rw [h]
    rfl
  · show (sortEntries entries).length = entries.length
    exact (List.perm_insertionSort keyLE entries).length_eq

/-- C9, amended, witness: the amended theorem applied to the fresh manager
(whose level 3 is empty) and a one-record table construction. -/
theorem c9_error_semantics_amended_witness :
    compactLevel SSTableManager.new ⟨[], 0, 0⟩ 3 4 =
      some (SSTableManager.new, ⟨[], 0, 0⟩, ⟨false, "No SSTables at level 3"⟩) ∧
    (mkSSTable 7 0 [⟨"a", some "1", 0⟩]).entries.length = 1 :=
  c9_error_semantics_amended SSTableManager.new ⟨[], 0, 0⟩ 3 4 7 0 [⟨"a", some "1", 0⟩] rfl

/-- Helper: `setBit` never clears a bit. -/
theorem getBit_setBit_mono (bf : BloomFilter) (i j : Nat) (h : bf.getBit i = true) :
    (bf.setBit j).getBit i = true := by
  unfold BloomFilter.getBit at h
  unfold BloomFilter.getBit BloomFilter.setBit
  rw [List.getD_eq_getElem?_getD] at h
  rw [List.getD_eq_getElem?_getD]
  by_cases hij : j = i
  · subst hij
    rcases Nat.lt_or_ge j bf.bits.length with hlt | hge
    · rw [List.getElem?_set_self hlt]
      rfl
    · rw [List.getElem?_set]
      rw [if_pos rfl, if_neg (by omega)]
      rw [List.getElem?_eq_none hge] at h
      exact h
  · rw [List.getElem?_set_ne hij]
    exact h

/-- Helper: `setBit` at an in-range position sets that bit. -/
theorem getBit_setBit_self (bf : BloomFilter) (i : Nat) (hi : i < bf.bits.length) :
    (bf.setBit i).getBit i = true := by
  unfold BloomFilter.getBit BloomFilter.setBit
  rw [List.getD_eq_getElem?_getD, List.getElem?_set_self hi]
  rfl

/-- Helper: a fold of `setBit`s never clears a bit. -/
theorem getBit_foldl_setBit_mono (l : List Nat) (bf : BloomFilter) (i : Nat)
    (h : bf.getBit i = true) :
    (l.foldl (fun b j => b.setBit j) bf).getBit i = true := by
  induction l generalizing bf with
  | nil => exact h
  | cons j rest ih => exact ih (bf.setBit j) (getBit_setBit_mono bf i j h)

/-- Helper: `setBit` keeps the bit-array length and the sizing fields. -/
theorem setBit_fields (bf : BloomFilter) (j : Nat) :
    (bf.setBit j).size = bf.size ∧ (bf.setBit j).numHashes = bf.numHashes ∧
      (bf.setBit j).bits.length = bf.bits.length := by
  refine ⟨rfl, rfl, ?_⟩
  simp [BloomFilter.setBit]

/-- Helper: an in-range member of a `setBit` fold ends up set. -/
theorem getBit_foldl_setBit_of_mem (l : List Nat) (bf : BloomFilter) (i : Nat)
    (hi : i ∈ l) (hil : i < bf.bits.length) :
    (l.foldl (fun b j => b.setBit j) bf).getBit i = true := by
  induction l generalizing bf with
  | nil => cases hi
  | cons j rest ih =>
    rcases List.mem_cons.1 hi with hj | hr
    · subst hj
      exact getBit_foldl_setBit_mono rest _ i (getBit_setBit_self bf i hil)
    · exact ih (bf.setBit j) hr (by rw [(setBit_fields bf j).2.2]; exact hil)

/-- Helper: `add` keeps the sizing fields and bit-array length. -/
theorem add_fields (bf : BloomFilter) (key : Key) :
    (bf.add key).size = bf.size ∧ (bf.add key).numHashes = bf.numHashes ∧
      (bf.add key).bits.length = bf.bits.length := by
  unfold BloomFilter.add
  refine ⟨?_, ?_, ?_⟩
  all_goals
    generalize bf.getHashes key = hs
    induction hs generalizing bf with
    | nil => rfl
    | cons j rest ih =>
      simp only [List.foldl_cons]
      rw [ih (bf.setBit j)]
      simp [BloomFilter.setBit]

/-- Helper: `getHashes` depends only on the sizing fields. -/
theorem getHashes_congr (bf1 bf2 : BloomFilter) (key : Key)
    (hs : bf1.size = bf2.size) (hn : bf1.numHashes = bf2.numHashes) :
    bf1.getHashes key = bf2.getHashes key := by
  unfold BloomFilter.getHashes
  rw [hs, hn]

/-- Helper: `add` never clears a bit. -/
theorem getBit_add_mono (bf : BloomFilter) (key : Key) (i : Nat)
    (h : bf.getBit i = true) :
    (bf.add key).getBit i = true := by
  unfold BloomFilter.add
  exact getBit_foldl_setBit_mono _ bf i h

/-- Helper: `add` sets all of the key's probe bits, in range. -/
theorem getBit_add_self (bf : BloomFilter) (key : Key) (i : Nat)
    (hi : i ∈ bf.getHashes key) (hil : i < bf.bits.length) :
    (bf.add key).getBit i = true := by
  unfold BloomFilter.add
  exact getBit_foldl_setBit_of_mem _ bf i hi hil

/-- Helper: probe positions are below `size` when the size is positive. -/
theorem getHashes_lt_size (bf : BloomFilter) (key : Key) (hsz : 0 < bf.size) :
    ∀ i ∈ bf.getHashes key, i < bf.size := by
  intro i hi
  unfold BloomFilter.getHashes at hi
  simp only [List.mem_map, List.mem_range] at hi
  obtain ⟨j, _, hj⟩ := hi
  rw [← hj]
  exact Nat.mod_lt _ hsz

/-- Helper: a fold of `add`s never turns `contains` from possibly-present to
definitely-absent. -/
theorem contains_foldl_add_mono (es : List Entry) (bf : BloomFilter) (key : Key)
    (h : bf.contains key = true) :
    (es.foldl (fun b e => b.add e.key) bf).contains key = true := by
  induction es generalizing bf with
  | nil => exact h
  | cons f rest ih =>
    simp only [List.foldl_cons]
    refine ih (bf.add f.key) ?_
    unfold BloomFilter.contains at h ⊢
    rw [List.all_eq_true] at h ⊢
    intro i hi
    have hf := add_fields bf f.key
    have hi0 : i ∈ bf.getHashes key := by
      rw [getHashes_congr (bf.add f.key) bf key hf.1 hf.2.1] at hi
      exact hi
    exact getBit_add_mono bf f.key i (h i hi0)

/-- Helper: a fold of `add`s over entries whose keys include `key` makes
`contains key` answer possibly-present, provided the filter's probe range
fits its bit array. -/
theorem contains_foldl_add_of_mem (es : List Entry) (bf : BloomFilter) (key : Key)
    (hmem : key ∈ es.map Entry.key)
    (hsz : 0 < bf.size) (hlen : bf.size ≤ bf.bits.length) :
    (es.foldl (fun b e => b.add e.key) bf).contains key = true := by
  induction es generalizing bf with
  | nil => cases hmem
  | cons e rest ih =>
    have hfields := add_fields bf e.key
    by_cases hke : e.key = key
    · -- key = e.key: this add sets every probe bit, later adds keep them set
      simp only [List.foldl_cons]
      refine contains_foldl_add_mono rest (bf.add e.key) key ?_
      unfold BloomFilter.contains
      rw [List.all_eq_true]
      intro i hi
      have hi0 : i ∈ bf.getHashes key := by
        rw [getHashes_congr (bf.add e.key) bf key hfields.1 hfields.2.1] at hi
        exact hi
      have hir : i < bf.bits.length :=
        lt_of_lt_of_le (getHashes_lt_size bf key hsz i hi0) hlen
      refine getBit_add_self bf e.key i ?_ hir
      rw [hke]
      exact hi0
    · -- key occurs in the rest: induct with the once-added filter
      have hmem2 : key ∈ rest.map Entry.key := by
        rcases List.mem_map.1 hmem with ⟨x, hx, hxk⟩
        rcases List.mem_cons.1 hx with hx1 | hx2
        · rw [hx1] at hxk; exact absurd hxk hke
        · exact List.mem_map.2 ⟨x, hx2, hxk⟩
      simp only [List.foldl_cons]
      refine ih (bf.add e.key) hmem2 ?_ ?_
      · rw [hfields.1]; exact hsz
      · rw [hfields.1, hfields.2.2]; exact hlen

/-- Helper: the derived bit-array length covers the bit positions. -/
theorem bloomBitLen_ge (m : Nat) : m ≤ bloomBitLen m := by
  unfold bloomBitLen
  omega

/-- Helper: the derived size is positive for at least one expected element. -/
theorem bloomSizeOf_pos (n : Nat) (hn : 0 < n) : 0 < bloomSizeOf n := by
  unfold bloomSizeOf
  have h1 : 958506 * 1 ≤ 958506 * n := Nat.mul_le_mul_left _ hn
  omega

/-- Helper: the bloom filter built over a record list answers possibly-present
for every key of the list. -/
theorem bloom_contains_of_mem (es : List Entry) (key : Key)
    (hk : key ∈ es.map Entry.key) :
    (buildBloomFilter es).contains key = true := by
  have hne : 0 < es.length := by
    rcases List.mem_map.1 hk with ⟨x, hx, _⟩
    exact List.length_pos.2 (List.ne_nil_of_mem hx)
  unfold buildBloomFilter
  refine contains_foldl_add_of_mem _ _ _ hk ?_ ?_
  · exact bloomSizeOf_pos _ hne
  · show bloomSizeOf es.length ≤
      (List.replicate (bloomBitLen (bloomSizeOf es.length)) false).length
    rw [List.length_replicate]
    exact bloomBitLen_ge _

/-- C6. Bloom no-false-negative: for every SSTable built by the constructor
and every key occurring in its records, the table's bloom filter answers
possibly-present (`mightExist = true`) for that key — `add` and `contains`
derive the same probe positions deterministically, `add` only ever sets bits,
and all probe positions lie inside the bit array. -/
theorem c6_bloom_no_false_negative (id level : Nat) (entries0 : List Entry) (key : Key)
    (hk : key ∈ (mkSSTable id level entries0).entries.map Entry.key) :
    (mkSSTable id level entries0).bloomFilter.contains key = true :=
  bloom_contains_of_mem (sortEntries entries0) key hk

/-- C6, witness: the no-false-negative theorem applied to a concrete
two-record table and one of its keys. -/
theorem c6_bloom_no_false_negative_witness :
    ("a" ∈ (mkSSTable 1 0 [⟨"a", some "1", 0⟩, ⟨"b", some "2", 1⟩]).entries.map
        Entry.key) ∧
    (mkSSTable 1 0 [⟨"a", some "1", 0⟩, ⟨"b", some "2", 1⟩]).bloomFilter.contains
        "a" = true :=
  ⟨by decide, c6_bloom_no_false_negative 1 0 [⟨"a", some "1", 0⟩, ⟨"b", some "2", 1⟩]
    "a" (by decide)⟩

/-- Helper: the lexicographic comparison is irreflexive. -/
theorem codeLt_irrefl : ∀ l : List Nat, codeLt l l = false
  | [] => rfl
  | a :: as => by
    unfold codeLt
    simp [codeLt_irrefl as]

/-- Helper: the lexicographic comparison is asymmetric. -/
theorem codeLt_asymm : ∀ a b : List Nat, codeLt a b = true → codeLt b a = false
  | [], [], h => by simp [codeLt] at h
  | _ :: _, [], h => by simp [codeLt] at h
  | [], _ :: _, _ => rfl
  | x :: xs, y :: ys, h => by
    unfold codeLt at h ⊢
    by_cases h1 : x < y
    · simp [h1, show ¬ y < x by omega]
    · by_cases h2 : y < x
      · simp [h1, h2] at h
      · simp [h1, h2] at h ⊢
        exact codeLt_asymm xs ys h

/-- Helper: the lexicographic comparison is transitive. -/
theorem codeLt_trans : ∀ a b c : List Nat,
    codeLt a b = true → codeLt b c = true → codeLt a c = true
  | [], [], _, h1, _ => by simp [codeLt] at h1
  | [], _ :: _, [], _, h2 => by simp [codeLt] at h2
  | [], _ :: _, _ :: _, _, _ => rfl
  | _ :: _, [], _, h1, _ => by simp [codeLt] at h1
  | _ :: _, _ :: _, [], _, h2 => by simp [codeLt] at h2
  | x :: xs, y :: ys, z :: zs, h1, h2 => by
    unfold codeLt at h1 h2 ⊢
    by_cases hxy : x < y
    · by_cases hyz : y < z
      · simp [show x < z by omega]
      · by_cases hzy : z < y
        · simp [hyz, hzy] at h2
        · have hEq : y = z := by omega
          subst hEq
          simp [hxy]
    · by_cases hyx : y < x
      · simp [hxy, hyx] at h1
      · have hEq : x = y := by omega
        subst hEq
        by_cases hxz : x < z
        · simp [hxz]
        · by_cases hzx : z < x
          · simp [hxz, hzx] at h2
          · have hEq2 : x = z := by omega
            subst hEq2
            simp [hxz] at h1 h2 ⊢
            exact codeLt_trans xs ys zs h1 h2

/-- Helper: two sequences incomparable in both directions are equal. -/
theorem codeLt_conn : ∀ a b : List Nat,
    codeLt a b = false → codeLt b a = false → a = b
  | [], [], _, _ => rfl
  | [], _ :: _, h1, _ => by simp [codeLt] at h1
  | _ :: _, [], _, h2 => by simp [codeLt] at h2
  | x :: xs, y :: ys, h1, h2 => by
    unfold codeLt at h1 h2
    by_cases hxy : x < y
    · simp [hxy] at h1
    · by_cases hyx : y < x
      · simp [hyx] at h2
      · have hEq : x = y := by omega
        subst hEq
        simp [hxy] at h1 h2
        rw [codeLt_conn xs ys h1 h2]

/-- Helper: code-unit sequences determine the key. -/
theorem charCodes_inj (a b : Key) (h : charCodes a = charCodes b) : a = b := by
  unfold charCodes at h
  have hchars : a.toList = b.toList := by
    refine List.map_injective_iff.2 ?_ h
    intro c d hcd
    exact Char.ext (UInt32.ext hcd)
  exact String.ext hchars

/-- Helper: `keyLt` is irreflexive. -/
theorem keyLt_irrefl (k : Key) : keyLt k k = false := codeLt_irrefl _

/-- Helper: `keyLt` is asymmetric. -/
theorem keyLt_asymm (a b : Key) (h : keyLt a b = true) : keyLt b a = false :=
  codeLt_asymm _ _ h

/-- Helper: `keyLt` is transitive. -/
theorem keyLt_trans (a b c : Key) (h1 : keyLt a b = true) (h2 : keyLt b c = true) :
    keyLt a c = true :=
  codeLt_trans _ _ _ h1 h2

/-- Helper: keys incomparable in both directions are equal. -/
theorem keyLt_conn (a b : Key) (h1 : keyLt a b = false) (h2 : keyLt b a = false) :
    a = b :=
  charCodes_inj _ _ (codeLt_conn _ _ h1 h2)

/-- Helper: the constructor's sort produces strictly increasing keys when the
input keys are pairwise distinct. -/
theorem sortEntries_strictSorted (es : List Entry)
    (hnd : ((sortEntries es).map Entry.key).Nodup) :
    keyStrictSorted (sortEntries es) := by
  have htot : IsTotal Entry keyLE := by
    constructor
    intro a b
    unfold keyLE keyLe
    cases h : keyLt b.key a.key
    · left; rfl
    · right
      rw [keyLt_asymm _ _ h]
      rfl
  have htr : IsTrans Entry keyLE := by
    constructor
    intro a b c h1 h2
    unfold keyLE keyLe at h1 h2 ⊢
    simp only [Bool.not_eq_true'] at h1 h2 ⊢
    cases hca : keyLt c.key a.key
    · rfl
    · exfalso
      cases hbc : keyLt b.key c.key
      · have hEq : c.key = b.key := keyLt_conn _ _ h2 hbc
        rw [hEq] at hca
        rw [hca] at h1
        cases h1
      · have : keyLt b.key a.key = true := keyLt_trans _ _ _ hbc hca
        rw [this] at h1
        cases h1
  have hsorted : List.Sorted keyLE (sortEntries es) :=
    @List.sorted_insertionSort Entry keyLE _ htot htr es
  have hne : List.Pairwise (fun a b : Entry => a.key ≠ b.key) (sortEntries es) :=
    List.pairwise_map.1 hnd
  unfold keyStrictSorted
  refine (hsorted.and hne).imp ?_
  intro a b hab
  obtain ⟨hle, hneq⟩ := hab
  unfold keyLE keyLe at hle
  simp only [Bool.not_eq_true'] at hle
  cases h : keyLt a.key b.key
  · exact absurd (keyLt_conn _ _ h hle) hneq
  · rfl

/-- Helper: strictly sorted record lists order their positions by key. -/
theorem sorted_getD_lt (es : List Entry) (hs : keyStrictSorted es) (i j : Nat)
    (hij : i < j) (hj : j < es.length) :
    keyLt (es.getD i dummyEntry).key (es.getD j dummyEntry).key = true := by
  have hi : i < es.length := lt_trans hij hj
  rw [List.getD_eq_getElem es dummyEntry hi, List.getD_eq_getElem es dummyEntry hj]
  exact (List.pairwise_iff_getElem.1 hs) i j hi hj hij

/-- Helper, binary-search soundness: any hit names a position that holds the
key, with the hit value that position's value (no sortedness needed). -/
theorem binarySearchGo_some_mem (es : List Entry) (key : Key) :
    ∀ (fuel : Nat) (left right : Int), 0 ≤ left → right < (es.length : Int) →
      ∀ (pos : Nat) (v : Option Val),
        binarySearchGo es key fuel left right = some (pos, v) →
        pos < es.length ∧ (es.getD pos dummyEntry).key = key ∧
          v = (es.getD pos dummyEntry).value := by
  intro fuel
  induction fuel with
  | zero =>
    intro l r _ _ pos v h
    simp [binarySearchGo] at h
  | succ f ih =>
    intro l r hl hr pos v h
    unfold binarySearchGo at h
    by_cases hlr : l ≤ r
    · rw [if_pos hlr] at h
      simp only [] at h
      by_cases hk : (es.getD ((l + r) / 2).toNat dummyEntry).key = key
      · rw [if_pos hk] at h
        have hmid : ((l + r) / 2).toNat < es.length := by omega
        simp only [Option.some.injEq, Prod.mk.injEq] at h
        refine ⟨h.1 ▸ hmid, h.1 ▸ hk, ?_⟩
        rw [← h.1]
        exact h.2.symm
      · rw [if_neg hk] at h
        by_cases hlt : keyLt key (es.getD ((l + r) / 2).toNat dummyEntry).key = true
        · rw [if_pos hlt] at h
          exact ih l (((l + r) / 2).toNat - 1) hl (by omega) pos v h
        · rw [if_neg hlt] at h
          exact ih (((l + r) / 2).toNat + 1) r (by omega) hr pos v h
    · rw [if_neg hlr] at h
      cases h

/-- Helper, binary-search completeness: with strictly sorted keys and the key
present at a position inside the search range, the search finds exactly that
position's record. -/
theorem binarySearchGo_finds (es : List Entry) (key : Key) (p : Nat)
    (hs : keyStrictSorted es) (hp : p < es.length)
    (hkey : (es.getD p dummyEntry).key = key) :
    ∀ (fuel : Nat) (left right : Int),
      0 ≤ left → right < (es.length : Int) →
      left ≤ (p : Int) → (p : Int) ≤ right →
      (right + 1 - left).toNat < fuel →
      binarySearchGo es key fuel left right =
        some (p, (es.getD p dummyEntry).value) := by
  intro fuel
  induction fuel with
  | zero =>
    intro l r _ _ _ _ hf
    omega
  | succ f ih =>
    intro l r hl hr hlp hpr hf
    have hlr : l ≤ r := le_trans hlp hpr
    unfold binarySearchGo
    rw [if_pos hlr]
    simp only []
    have hmlen : ((l + r) / 2).toNat < es.length := by omega
    by_cases hk : (es.getD ((l + r) / 2).toNat dummyEntry).key = key
    · rw [if_pos hk]
      have hmp : ((l + r) / 2).toNat = p := by
        rcases Nat.lt_trichotomy ((l + r) / 2).toNat p with h1 | h1 | h1
        · have h2 := sorted_getD_lt es hs _ p h1 hp
          rw [hk, hkey, keyLt_irrefl] at h2
          cases h2
        · exact h1
        · have h2 := sorted_getD_lt es hs p _ h1 hmlen
          rw [hk, hkey, keyLt_irrefl] at h2
          cases h2
      rw [hmp]
    · rw [if_neg hk]
      by_cases hlt : keyLt key (es.getD ((l + r) / 2).toNat dummyEntry).key = true
      · rw [if_pos hlt]
        have hpm : p < ((l + r) / 2).toNat := by
          rcases Nat.lt_trichotomy p ((l + r) / 2).toNat with h1 | h1 | h1
          · exact h1
          · exfalso
            rw [← h1] at hk
            exact hk hkey
          · exfalso
            have h2 := sorted_getD_lt es hs _ p h1 hp
            rw [hkey] at h2
            rw [keyLt_asymm _ _ h2] at hlt
            cases hlt
        exact ih l ((((l + r) / 2).toNat : Int) - 1) hl (by omega) hlp (by omega) (by omega)
      · rw [if_neg hlt]
        have hmk : keyLt (es.getD ((l + r) / 2).toNat dummyEntry).key key = true := by
          cases h2 : keyLt (es.getD ((l + r) / 2).toNat dummyEntry).key key
          · exfalso
            have h3 : keyLt key (es.getD ((l + r) / 2).toNat dummyEntry).key = false := by
              cases h4 : keyLt key (es.getD ((l + r) / 2).toNat dummyEntry).key
              · rfl
              · exact absurd h4 hlt
            exact hk (keyLt_conn _ _ h2 h3)
          · rfl
        have hmp : ((l + r) / 2).toNat < p := by
          rcases Nat.lt_trichotomy ((l + r) / 2).toNat p with h1 | h1 | h1
          · exact h1
          · exfalso
            rw [h1] at hk
            exact hk hkey
          · exfalso
            have h2 := sorted_getD_lt es hs p _ h1 hmlen
            rw [hkey] at h2
            rw [keyLt_asymm _ _ h2] at hmk
            cases hmk
        exact ih ((((l + r) / 2).toNat : Int) + 1) r (by omega) hr (by omega) hpr (by omega)

/-- Helper: positions produced by the sparse-index stride loop are in range. -/
theorem stridePosGo_lt (len step : Nat) :
    ∀ (fuel i : Nat), ∀ j ∈ stridePosGo len step fuel i, j < len := by
  intro fuel
  induction fuel with
  | zero =>
    intro i j hj
    simp [stridePosGo] at hj
  | succ f ih =>
    intro i j hj
    unfold stridePosGo at hj
    by_cases hi : i < len
    · rw [if_pos hi] at hj
      rcases List.mem_cons.1 hj with h1 | h2
      · rw [h1]; exact hi
      · exact ih (i + step) j h2
    · rw [if_neg hi] at hj
      cases hj

/-- Helper: every sparse-index pair names an in-range position holding its
key. -/
theorem sparseIndex_entries (es : List Entry) (step : Nat) :
    ∀ pr ∈ buildSparseIndex es step,
      pr.2 < es.length ∧ (es.getD pr.2 dummyEntry).key = pr.1 := by
  intro pr hpr
  unfold buildSparseIndex at hpr
  by_cases hm : es.length % step ≠ 0
  · rw [if_pos hm] at hpr
    rcases List.mem_append.1 hpr with h1 | h2
    · rcases List.mem_map.1 h1 with ⟨i, hi, hpr2⟩
      rw [← hpr2]
      exact ⟨stridePosGo_lt _ _ _ _ i hi, rfl⟩
    · rw [List.mem_singleton.1 h2]
      have hlen : es.length ≠ 0 := by
        intro h0
        rw [h0] at hm
        exact hm (Nat.zero_mod step)
      exact ⟨by omega, rfl⟩
  · rw [if_neg hm] at hpr
    rcases List.mem_map.1 hpr with ⟨i, hi, hpr2⟩
    rw [← hpr2]
    exact ⟨stridePosGo_lt _ _ _ _ i hi, rfl⟩

/-- Helper: when the sparse-index narrowing loop selects an interval, the
position of any record holding the key lies inside it (and its end is in
range). -/
theorem narrowGo_bounds (es : List Entry) (key : Key) (p : Nat)
    (hs : keyStrictSorted es) (hp : p < es.length)
    (hkey : (es.getD p dummyEntry).key = key) :
    ∀ idx : List (Key × Nat),
      (∀ pr ∈ idx, pr.2 < es.length ∧ (es.getD pr.2 dummyEntry).key = pr.1) →
      ∀ p1 p2, narrowGo key idx = some (p1, p2) →
        p1 ≤ p ∧ p ≤ p2 ∧ p2 < es.length
  | [] => by
    intro _ p1 p2 h
    simp [narrowGo] at h
  | [pr] => by
    intro _ p1 p2 h
    obtain ⟨k1, q1⟩ := pr
    simp [narrowGo] at h
  | (k1, q1) :: (k2, q2) :: rest => by
    intro hidx p1 p2 h
    unfold narrowGo at h
    by_cases hc : (keyLe k1 key && keyLt key k2) = true
    · rw [if_pos hc] at h
      simp only [Option.some.injEq, Prod.mk.injEq] at h
      obtain ⟨hq1, hq2⟩ := h
      obtain ⟨hq1len, hq1key⟩ := hidx (k1, q1) (by simp)
      obtain ⟨hq2len, hq2key⟩ := hidx (k2, q2) (by simp)
      rw [Bool.and_eq_true] at hc
      obtain ⟨hle, hlt⟩ := hc
      refine ⟨?_, ?_, hq2 ▸ hq2len⟩
      · rw [← hq1]
        by_contra hq
        push_neg at hq
        have h2 := sorted_getD_lt es hs p q1 hq hq1len
        rw [hkey, hq1key] at h2
        unfold keyLe at hle
        rw [h2] at hle
        cases hle
      · rw [← hq2]
        by_contra hq
        push_neg at hq
        have h2 := sorted_getD_lt es hs q2 p hq hp
        rw [hq2key, hkey] at h2
        rw [keyLt_asymm _ _ h2] at hlt
        cases hlt
    · rw [if_neg hc] at h
      exact narrowGo_bounds es key p hs hp hkey ((k2, q2) :: rest)
        (fun pr hpr => hidx pr (List.mem_cons_of_mem _ hpr)) p1 p2 h

/-- Helper: a selected narrowing interval's endpoints come from the index. -/
theorem narrowGo_mem (key : Key) :
    ∀ idx : List (Key × Nat), ∀ p1 p2, narrowGo key idx = some (p1, p2) →
      (∃ k1, (k1, p1) ∈ idx) ∧ (∃ k2, (k2, p2) ∈ idx)
  | [] => by
    intro p1 p2 h
    simp [narrowGo] at h
  | [pr] => by
    intro p1 p2 h
    obtain ⟨k1, q1⟩ := pr
    simp [narrowGo] at h
  | (k1, q1) :: (k2, q2) :: rest => by
    intro p1 p2 h
    unfold narrowGo at h
    by_cases hc : (keyLe k1 key && keyLt key k2) = true
    · rw [if_pos hc] at h
      simp only [Option.some.injEq, Prod.mk.injEq] at h
      obtain ⟨hq1, hq2⟩ := h
      exact ⟨⟨k1, by rw [← hq1]; simp⟩, ⟨k2, by rw [← hq2]; simp⟩⟩
    · rw [if_neg hc] at h
      obtain ⟨⟨ka, hka⟩, ⟨kb, hkb⟩⟩ := narrowGo_mem key ((k2, q2) :: rest) p1 p2 h
      exact ⟨⟨ka, List.mem_cons_of_mem _ hka⟩, ⟨kb, List.mem_cons_of_mem _ hkb⟩⟩

/-- C7. SSTable point-lookup correctness, for a constructor-built table with
pairwise distinct keys: `get key` reports found with the stored record's
value exactly when the key occurs among the table's records, and otherwise a
miss with no value; a miss decided by the bloom filter carries
`bloomFilterSaved = true` and a miss decided by the sparse-index-bounded
binary search carries `bloomFilterSaved = false` (together:
`bloomFilterSaved` is the negation of the bloom answer). -/
theorem c7_sstable_get_correct (t : SSTable) (id level : Nat) (entries0 : List Entry)
    (key : Key) (ht : t = mkSSTable id level entries0)
    (hnd : (t.entries.map Entry.key).Nodup) :
    ((t.get key).found = true ↔ key ∈ t.entries.map Entry.key) ∧
    (∀ e ∈ t.entries, e.key = key →
      (t.get key).found = true ∧ (t.get key).value = e.value) ∧
    ((t.get key).found = false →
      (t.get key).value = none ∧
      (t.get key).bloomFilterSaved = (! t.bloomFilter.contains key)) := by
  subst ht
  have hs : keyStrictSorted (sortEntries entries0) := sortEntries_strictSorted entries0 hnd
  have hsi : ∀ pr ∈ (mkSSTable id level entries0).sparseIndex,
      pr.2 < (sortEntries entries0).length ∧
        ((sortEntries entries0).getD pr.2 dummyEntry).key = pr.1 :=
    sparseIndex_entries (sortEntries entries0) 10
  -- found case: the key sits at position p
  have hfound : ∀ p : Nat, p < (sortEntries entries0).length →
      ((sortEntries entries0).getD p dummyEntry).key = key →
      (mkSSTable id level entries0).get key =
        ⟨true, ((sortEntries entries0).getD p dummyEntry).value, false⟩ := by
    intro p hp hkey
    have hbl : (mkSSTable id level entries0).bloomFilter.contains key = true := by
      refine bloom_contains_of_mem (sortEntries entries0) key ?_
      refine List.mem_map.2 ⟨(sortEntries entries0).getD p dummyEntry, ?_, hkey⟩
      rw [List.getD_eq_getElem _ _ hp]
      exact List.getElem_mem hp
    unfold SSTable.get
    rw [if_neg (fun hn => hn hbl)]
    cases hn : narrowGo key ((mkSSTable id level entries0).sparseIndex) with
    | some pq =>
      obtain ⟨p1, p2⟩ := pq
      obtain ⟨hp1, hp2, hp2len⟩ :=
        narrowGo_bounds (sortEntries entries0) key p hs hp hkey
          ((mkSSTable id level entries0).sparseIndex) hsi p1 p2 hn
      simp only []
      rw [show binarySearch (mkSSTable id level entries0).entries key (p1 : Int) (p2 : Int) =
          binarySearchGo (sortEntries entries0) key ((sortEntries entries0).length + 1)
            (p1 : Int) (p2 : Int) from rfl]
      rw [binarySearchGo_finds (sortEntries entries0) key p hs hp hkey _ (p1 : Int)
        (p2 : Int) (by omega) (by omega) (by omega) (by omega) (by omega)]
    | none =>
      simp only []
      rw [show binarySearch (mkSSTable id level entries0).entries key 0
          (((mkSSTable id level entries0).entries.length : Int) - 1) =
          binarySearchGo (sortEntries entries0) key ((sortEntries entries0).length + 1) 0
            (((sortEntries entries0).length : Int) - 1) from rfl]
      rw [binarySearchGo_finds (sortEntries entries0) key p hs hp hkey _ 0
        (((sortEntries entries0).length : Int) - 1) (by omega) (by omega) (by omega)
        (by omega) (by omega)]
  -- absent case
  have habsent : ¬ (key ∈ (sortEntries entries0).map Entry.key) →
      (mkSSTable id level entries0).get key =
        ⟨false, none, ! (mkSSTable id level entries0).bloomFilter.contains key⟩ := by
    intro hmem
    unfold SSTable.get
    by_cases hbl : (mkSSTable id level entries0).bloomFilter.contains key = true
    · rw [if_neg (fun hn => hn hbl), hbl]
      have hsound : ∀ (left right : Int), 0 ≤ left →
          right < ((sortEntries entries0).length : Int) →
          binarySearchGo (sortEntries entries0) key ((sortEntries entries0).length + 1)
            left right = none := by
        intro left right h0 hr
        cases hbs : binarySearchGo (sortEntries entries0) key
            ((sortEntries entries0).length + 1) left right with
        | none => rfl
        | some pv =>
          obtain ⟨pos, v⟩ := pv
          obtain ⟨hpos, hkpos, _⟩ :=
            binarySearchGo_some_mem (sortEntries entries0) key _ left right h0 hr pos v hbs
          exfalso
          refine hmem (List.mem_map.2 ⟨(sortEntries entries0).getD pos dummyEntry, ?_, hkpos⟩)
          rw [List.getD_eq_getElem _ _ hpos]
          exact List.getElem_mem hpos
      cases hn : narrowGo key ((mkSSTable id level entries0).sparseIndex) with
      | some pq =>
        obtain ⟨p1, p2⟩ := pq
        obtain ⟨_, ⟨k2, hk2⟩⟩ :=
          narrowGo_mem key ((mkSSTable id level entries0).sparseIndex) p1 p2 hn
        have hp2len : p2 < (sortEntries entries0).length := (hsi (k2, p2) hk2).1
        simp only []
        rw [show binarySearch (mkSSTable id level entries0).entries key (p1 : Int) (p2 : Int) =
            binarySearchGo (sortEntries entries0) key ((sortEntries entries0).length + 1)
              (p1 : Int) (p2 : Int) from rfl]
        rw [hsound (p1 : Int) (p2 : Int) (by omega) (by omega)]
        rfl
      | none =>
        simp only []
        rw [show binarySearch (mkSSTable id level entries0).entries key 0
            (((mkSSTable id level entries0).entries.length : Int) - 1) =
            binarySearchGo (sortEntries entries0) key ((sortEntries entries0).length + 1) 0
              (((sortEntries entries0).length : Int) - 1) from rfl]
        rw [hsound 0 (((sortEntries entries0).length : Int) - 1) (by omega) (by omega)]
        rfl
    · rw [if_pos hbl]
      have hbl2 : (mkSSTable id level entries0).bloomFilter.contains key = false := by
        cases h2 : (mkSSTable id level entries0).bloomFilter.contains key
        · rfl
        · exact absurd h2 hbl
      rw [hbl2]
      rfl
  -- assemble the three clauses
  refine ⟨?_, ?_, ?_⟩
  · constructor
    · intro hf
      by_contra hmem
      rw [habsent hmem] at hf
      cases hf
    · intro hmem
      have hmem2 : key ∈ (sortEntries entries0).map Entry.key := hmem
      rcases List.mem_map.1 hmem2 with ⟨x, hx, hxk⟩
      rcases List.mem_iff_getElem.1 hx with ⟨p, hp, hpe⟩
      have hkey : ((sortEntries entries0).getD p dummyEntry).key = key := by
        rw [List.getD_eq_getElem _ _ hp, hpe]
        exact hxk
      rw [hfound p hp hkey]
  · intro e he hek
    have he2 : e ∈ sortEntries entries0 := he
    rcases List.mem_iff_getElem.1 he2 with ⟨p, hp, hpe⟩
    have hkey : ((sortEntries entries0).getD p dummyEntry).key = key := by
      rw [List.getD_eq_getElem _ _ hp, hpe]
      exact hek
    rw [hfound p hp hkey]
    refine ⟨rfl, ?_⟩
    show ((sortEntries entries0).getD p dummyEntry).value = e.value
    rw [List.getD_eq_getElem _ _ hp, hpe]
  · intro hf
    by_cases hmem : key ∈ (sortEntries entries0).map Entry.key
    · exfalso
      rcases List.mem_map.1 hmem with ⟨x, hx, hxk⟩
      rcases List.mem_iff_getElem.1 hx with ⟨p, hp, hpe⟩
      have hkey : ((sortEntries entries0).getD p dummyEntry).key = key := by
        rw [List.getD_eq_getElem _ _ hp, hpe]
        exact hxk
      rw [hfound p hp hkey] at hf
      cases hf
    · rw [habsent hmem]
      exact ⟨rfl, rfl⟩

/-- Helper: characterization of `countP` positions in a strictly sorted node
list — a position's key is below the target exactly when the position is
below the count of below-target nodes. -/
theorem sorted_lb_char (key : Key) :
    ∀ nodes : List SLNode,
      List.Pairwise (fun a b : SLNode => keyLt a.key b.key = true) nodes →
      ∀ j, j < nodes.length →
        (keyLt (nodes.getD j dummySLNode).key key = true ↔
          j < nodes.countP (fun n => keyLt n.key key))
  | [], _, j, hj => by simp at hj
  | a :: l, hp, j, hj => by
    obtain ⟨ha, hpl⟩ := List.pairwise_cons.1 hp
    rw [List.countP_cons]
    cases j with
    | zero =>
      simp only [List.getD_cons_zero]
      by_cases hPa : keyLt a.key key = true
      · simp [hPa]
      · have hc0 : l.countP (fun n => keyLt n.key key) = 0 := by
          rw [List.countP_eq_zero]
          intro x hx hPx
          exact hPa (keyLt_trans _ _ _ (ha x hx) hPx)
        simp [hPa, hc0]
    | succ j2 =>
      simp only [List.getD_cons_succ]
      rw [sorted_lb_char key l hpl j2 (by simpa using hj)]
      by_cases hPa : keyLt a.key key = true
      · simp only [hPa, if_true]
        omega
      · have hc0 : l.countP (fun n => keyLt n.key key) = 0 := by
          rw [List.countP_eq_zero]
          intro x hx hPx
          exact hPa (keyLt_trans _ _ _ (ha x hx) hPx)
        simp [hPa, hc0]

/-- Helper: a successful `findIdx?` yields an index inside the list, offset
by the start accumulator. -/
theorem findIdx?_some_facts {α : Type} (p : α → Bool) :
    ∀ (l : List α) (s j : Nat), List.findIdx? p l s = some j → s ≤ j ∧ j - s < l.length
  | [], s, j, h => by simp [List.findIdx?] at h
  | x :: xs, s, j, h => by
    rw [List.findIdx?_cons] at h
    by_cases hp : p x = true
    · rw [if_pos hp] at h
      simp only [Option.some.injEq] at h
      simp only [List.length_cons]
      omega
    · rw [if_neg hp] at h
      have h2 := findIdx?_some_facts p xs (s + 1) j h
      simp only [List.length_cons]
      omega

/-- Helper: a forward pointer names a position at or after the current one,
inside the list. -/
theorem slFwd_some (nodes : List SLNode) (i p j : Nat) (h : slFwd nodes i p = some j) :
    p ≤ j ∧ j < nodes.length := by
  unfold slFwd at h
  cases hf : (nodes.drop p).findIdx? (fun n => decide (i ≤ n.height)) with
  | none => rw [hf] at h; cases h
  | some j0 =>
    rw [hf] at h
    simp only [Option.some.injEq] at h
    obtain ⟨h1, h2⟩ := findIdx?_some_facts _ _ 0 j0 hf
    have hlen : (nodes.drop p).length = nodes.length - p := List.length_drop p nodes
    omega

/-- Helper: at level 0 every node is linked, so the forward pointer from `p`
is `p` itself while in range. -/
theorem slFwd_zero (nodes : List SLNode) (p : Nat) :
    slFwd nodes 0 p = if p < nodes.length then some p else none := by
  unfold slFwd
  by_cases hp : p < nodes.length
  · rw [if_pos hp]
    cases hd : nodes.drop p with
    | nil =>
      exfalso
      have h2 : nodes.length - p = 0 := by
        rw [← List.length_drop p nodes, hd]
        rfl
      omega
    | cons x xs =>
      rw [List.findIdx?_cons]
      simp
  · rw [if_neg hp]
    have hd : nodes.drop p = [] := List.drop_eq_nil_of_le (by omega)
    rw [hd]
    simp [List.findIdx?]

/-- Helper: walking a level never moves past the count of below-target
nodes. -/
theorem slAdvanceGo_le_lb (nodes : List SLNode) (key : Key)
    (hs : List.Pairwise (fun a b : SLNode => keyLt a.key b.key = true) nodes) (i : Nat) :
    ∀ (fuel p : Nat), p ≤ nodes.countP (fun n => keyLt n.key key) →
      slAdvanceGo nodes key i fuel p ≤ nodes.countP (fun n => keyLt n.key key) := by
  intro fuel
  induction fuel with
  | zero =>
    intro p hp
    exact hp
  | succ f ih =>
    intro p hp
    unfold slAdvanceGo
    cases hf : slFwd nodes i p with
    | none => exact hp
    | some j =>
      simp only []
      by_cases hk : keyLt (nodes.getD j dummySLNode).key key = true
      · rw [if_pos hk]
        obtain ⟨hpj, hjlen⟩ := slFwd_some nodes i p j hf
        have hj : j < nodes.countP (fun n => keyLt n.key key) :=
          (sorted_lb_char key nodes hs j hjlen).1 hk
        exact ih (j + 1) hj
      · rw [if_neg hk]
        exact hp

/-- Helper: the level-0 walk lands exactly on the count of below-target
nodes. -/
theorem slAdvanceGo_zero (nodes : List SLNode) (key : Key)
    (hs : List.Pairwise (fun a b : SLNode => keyLt a.key b.key = true) nodes) :
    ∀ (fuel p : Nat), p ≤ nodes.countP (fun n => keyLt n.key key) →
      nodes.length - p < fuel →
      slAdvanceGo nodes key 0 fuel p = nodes.countP (fun n => keyLt n.key key) := by
  intro fuel
  induction fuel with
  | zero =>
    intro p _ hf
    omega
  | succ f ih =>
    intro p hp hf
    unfold slAdvanceGo
    rw [slFwd_zero]
    by_cases hlen : p < nodes.length
    · rw [if_pos hlen]
      simp only []
      by_cases hk : keyLt (nodes.getD p dummySLNode).key key = true
      · rw [if_pos hk]
        have hplt : p < nodes.countP (fun n => keyLt n.key key) :=
          (sorted_lb_char key nodes hs p hlen).1 hk
        exact ih (p + 1) hplt (by omega)
      · rw [if_neg hk]
        have hge : ¬ p < nodes.countP (fun n => keyLt n.key key) := by
          intro hcon
          exact hk ((sorted_lb_char key nodes hs p hlen).2 hcon)
        omega
    · rw [if_neg hlen]
      simp only []
      have hle := List.countP_le_length (p := fun n => keyLt n.key key) (l := nodes)
      omega

/-- Helper: the whole descent lands on the count of below-target nodes,
independently of node heights and of the starting level. -/
theorem slDescendGo_eq_lb (nodes : List SLNode) (key : Key)
    (hs : List.Pairwise (fun a b : SLNode => keyLt a.key b.key = true) nodes) :
    ∀ (i p : Nat), p ≤ nodes.countP (fun n => keyLt n.key key) →
      slDescendGo nodes key p i = nodes.countP (fun n => keyLt n.key key)
  | 0, p, hp => by
    unfold slDescendGo
    exact slAdvanceGo_zero nodes key hs (nodes.length + 1) p hp (by omega)
  | i + 1, p, hp => by
    unfold slDescendGo
    exact slDescendGo_eq_lb nodes key hs i (slAdvance nodes key (i + 1) p)
      (slAdvanceGo_le_lb nodes key hs (i + 1) (nodes.length + 1) p hp)

/-- Helper: `slDescend` computes the lower-bound position, for any starting
level and any node heights. -/
theorem slDescend_eq_lb (nodes : List SLNode) (key : Key) (lvl : Nat)
    (hs : List.Pairwise (fun a b : SLNode => keyLt a.key b.key = true) nodes) :
    slDescend nodes key lvl = nodes.countP (fun n => keyLt n.key key) := by
  unfold slDescend
  exact slDescendGo_eq_lb nodes key hs lvl 0 (Nat.zero_le _)

/-- Helper: `getD` commutes with `map`. -/
theorem getD_map_gen {α β : Type} (f : α → β) (l : List α) (i : Nat) (d : α) :
    (l.map f).getD i (f d) = f (l.getD i d) := by
  rw [List.getD_eq_getElem?_getD, List.getD_eq_getElem?_getD, List.getElem?_map]
  cases l[i]? <;> rfl

/-- Helper: `insertIdx` commutes with `map`. -/
theorem map_insertIdx_gen {α β : Type} (f : α → β) (a : α) :
    ∀ (n : Nat) (l : List α), (l.insertIdx n a).map f = (l.map f).insertIdx n (f a)
  | 0, l => by simp
  | _ + 1, [] => by simp
  | n + 1, x :: l => by
    simp only [List.insertIdx_succ_cons, List.map_cons]
    rw [map_insertIdx_gen f a n l]

/-- Helper: `insertIdx` inside the list splits into take and drop. -/
theorem insertIdx_take_drop {α : Type} (a : α) :
    ∀ (n : Nat) (l : List α), n ≤ l.length →
      l.insertIdx n a = l.take n ++ a :: l.drop n
  | 0, l, _ => by simp
  | _ + 1, [], h => by simp at h
  | n + 1, x :: l, h => by
    simp only [List.insertIdx_succ_cons, List.take_succ_cons, List.drop_succ_cons,
      List.cons_append]
    rw [insertIdx_take_drop a n l (by simpa using h)]

/-- Helper: overwriting a slot with a node of the same key keeps the strict
key order. -/
theorem pairwise_set_samekey (l : List SLNode) (i : Nat) (x : SLNode)
    (hs : List.Pairwise (fun a b : SLNode => keyLt a.key b.key = true) l)
    (hi : i < l.length) (hkey : x.key = l[i].key) :
    List.Pairwise (fun a b : SLNode => keyLt a.key b.key = true) (l.set i x) := by
  rw [List.pairwise_iff_getElem] at hs ⊢
  intro a b ha hb hab
  simp only [List.length_set] at ha hb
  have horig := hs a b ha hb hab
  rw [List.getElem_set, List.getElem_set]
  by_cases hai : i = a
  · by_cases hbi : i = b
    · omega
    · rw [if_pos hai, if_neg hbi]
      rw [hkey]
      subst hai
      exact horig
  · by_cases hbi : i = b
    · rw [if_neg hai, if_pos hbi]
      rw [hkey]
      subst hbi
      exact horig
    · rw [if_neg hai, if_neg hbi]
      exact horig

/-- Helper: splicing a fresh key at its lower-bound position keeps the strict
key order. -/
theorem pairwise_insert_lb (nodes : List SLNode) (key : Key) (v : Option Val)
    (ts h : Nat)
    (hs : List.Pairwise (fun a b : SLNode => keyLt a.key b.key = true) nodes)
    (hnk : ∀ j, j < nodes.length → (nodes.getD j dummySLNode).key ≠ key) :
    List.Pairwise (fun a b : SLNode => keyLt a.key b.key = true)
      (nodes.insertIdx (nodes.countP (fun n => keyLt n.key key))
        ⟨key, v, ts, h⟩) := by
  have hlble : nodes.countP (fun n => keyLt n.key key) ≤ nodes.length :=
    List.countP_le_length _
  rw [insertIdx_take_drop _ _ nodes hlble]
  rw [List.pairwise_append]
  have hdropkey : ∀ b ∈ nodes.drop (nodes.countP (fun n => keyLt n.key key)),
      keyLt key b.key = true := by
    intro b hb
    rw [List.mem_drop_iff_getElem] at hb
    obtain ⟨i, hilen, hib⟩ := hb
    have hjlen : nodes.countP (fun n => keyLt n.key key) + i < nodes.length := by omega
    have hbD : (nodes.getD (nodes.countP (fun n => keyLt n.key key) + i)
        dummySLNode).key = b.key := by
      rw [List.getD_eq_getElem _ _ hjlen, hib]
    have hnP : ¬ keyLt (nodes.getD (nodes.countP (fun n => keyLt n.key key) + i)
        dummySLNode).key key = true := by
      intro hP
      have := (sorted_lb_char key nodes hs _ hjlen).1 hP
      omega
    have hne := hnk _ hjlen
    rw [hbD] at hnP hne
    cases h2 : keyLt key b.key
    · exfalso
      have h3 : keyLt b.key key = false := by
        cases h4 : keyLt b.key key
        · rfl
        · exact absurd h4 hnP
      exact hne (keyLt_conn _ _ h3 h2)
    · rfl
  refine ⟨List.Pairwise.sublist (List.take_sublist _ nodes) hs, ?_, ?_⟩
  · rw [List.pairwise_cons]
    exact ⟨hdropkey, List.Pairwise.sublist (List.drop_sublist _ nodes) hs⟩
  · intro a ha b hb
    rw [List.mem_take_iff_getElem] at ha
    obtain ⟨i, hilt, hia⟩ := ha
    have hilen : i < nodes.length := lt_of_lt_of_le (lt_min_iff.1 hilt).2 (le_refl _)
    have hilb : i < nodes.countP (fun n => keyLt n.key key) := (lt_min_iff.1 hilt).1
    have haP : keyLt a.key key = true := by
      have := (sorted_lb_char key nodes hs i hilen).2 hilb
      rw [List.getD_eq_getElem _ _ hilen, hia] at this
      exact this
    rcases List.mem_cons.1 hb with hb1 | hb2
    · rw [hb1]
      exact haP
    · exact keyLt_trans _ _ _ haP (hdropkey b hb2)

/-- Helper: node erasure preserves keys, so strict key order survives the
erasure map. -/
theorem pairwise_map_erase (nodes : List SLNode)
    (hs : List.Pairwise (fun a b : SLNode => keyLt a.key b.key = true) nodes) :
    List.Pairwise (fun a b : SLNode => keyLt a.key b.key = true)
      (nodes.map eraseNode) := by
  rw [List.pairwise_map]
  exact hs

/-- Helper: the below-target count is blind to node erasure. -/
theorem countP_map_erase (nodes : List SLNode) (key : Key) :
    (nodes.map eraseNode).countP (fun n => keyLt n.key key) =
      nodes.countP (fun n => keyLt n.key key) := by
  rw [List.countP_map]
  rfl

/-- Helper: `slSearch` returns the same answer on the erased node list, from
any starting level: the descent position is the key lower bound either way. -/
theorem slSearch_erase (nodes : List SLNode) (lvl lvl2 : Nat) (key : Key)
    (hs : List.Pairwise (fun a b : SLNode => keyLt a.key b.key = true) nodes) :
    slSearch (nodes.map eraseNode) lvl2 key = slSearch nodes lvl key := by
  have hsm := pairwise_map_erase nodes hs
  simp only [slSearch]
  rw [slDescend_eq_lb nodes key lvl hs, slDescend_eq_lb _ key lvl2 hsm,
    countP_map_erase]
  rw [List.get?_eq_getElem?, List.get?_eq_getElem?, List.getElem?_map]
  cases hg : nodes[nodes.countP fun n => keyLt n.key key]? with
  | none => rfl
  | some n =>
    simp only [Option.map_some']
    rfl

/-- Helper: no position of a strictly sorted node list carries the target key
when the lower-bound position does not. -/
theorem sorted_no_key_of_lb (nodes : List SLNode) (key : Key)
    (hs : List.Pairwise (fun a b : SLNode => keyLt a.key b.key = true) nodes)
    (hc : ∀ n, nodes.get? (nodes.countP (fun n => keyLt n.key key)) = some n →
      n.key ≠ key) :
    ∀ j, j < nodes.length → (nodes.getD j dummySLNode).key ≠ key := by
  intro j hj hkeq
  have hnotlt : ¬ keyLt (nodes.getD j dummySLNode).key key = true := by
    rw [hkeq, keyLt_irrefl]
    simp
  have hge : ¬ j < nodes.countP (fun n => keyLt n.key key) := by
    intro hcon
    exact hnotlt ((sorted_lb_char key nodes hs j hj).2 hcon)
  by_cases hcj : nodes.countP (fun n => keyLt n.key key) = j
  · have hgj : nodes.get? j = some (nodes.getD j dummySLNode) := by
      rw [List.get?_eq_getElem?, List.getElem?_eq_getElem hj,
        List.getD_eq_getElem _ _ hj]
    exact hc _ (hcj ▸ hgj) hkeq
  · have hclt : nodes.countP (fun n => keyLt n.key key) < j := by omega
    have hclen : nodes.countP (fun n => keyLt n.key key) < nodes.length := by omega
    have hpg := (List.pairwise_iff_getElem.1 hs) _ _ hclen hj hclt
    have hPc : keyLt (nodes.getD (nodes.countP (fun n => keyLt n.key key))
        dummySLNode).key key = true := by
      rw [List.getD_eq_getElem _ _ hj] at hkeq
      rw [hkeq] at hpg
      rw [List.getD_eq_getElem _ _ hclen]
      exact hpg
    have := (sorted_lb_char key nodes hs _ hclen).1 hPc
    omega

/-- Helper: `slInsert` on the erased node list (zero height draw, zero clock,
list level 0) produces exactly the erasure of the original insert's node
list, level 0, and the same update flag. -/
theorem slInsert_erase (nodes : List SLNode) (lvl : Nat) (key : Key)
    (v : Option Val) (h1 ts1 : Nat)
    (hs : List.Pairwise (fun a b : SLNode => keyLt a.key b.key = true) nodes) :
    slInsert (nodes.map eraseNode) 0 key v 0 0 =
      ((slInsert nodes lvl key v h1 ts1).1.map eraseNode, 0,
        (slInsert nodes lvl key v h1 ts1).2.2) := by
  have hsm := pairwise_map_erase nodes hs
  simp only [slInsert]
  rw [slDescend_eq_lb nodes key lvl hs, slDescend_eq_lb _ key 0 hsm,
    countP_map_erase]
  rw [List.get?_eq_getElem?, List.get?_eq_getElem?, List.getElem?_map]
  cases hg : nodes[nodes.countP fun n => keyLt n.key key]? with
  | none =>
    simp only [Option.map_none']
    rw [map_insertIdx_gen]
    rfl
  | some n =>
    simp only [Option.map_some']
    by_cases hk : n.key = key
    · have hek : (eraseNode n).key = key := hk
      rw [if_pos hk, if_pos hek]
      rw [List.map_set]
      rfl
    · have hek : ¬ (eraseNode n).key = key := hk
      rw [if_neg hk, if_neg hek]
      rw [map_insertIdx_gen]
      rfl

/-- Helper: `slInsert` preserves the strict key order of the node list. -/
theorem slInsert_WF (nodes : List SLNode) (lvl : Nat) (key : Key)
    (v : Option Val) (h1 ts1 : Nat)
    (hs : List.Pairwise (fun a b : SLNode => keyLt a.key b.key = true) nodes) :
    List.Pairwise (fun a b : SLNode => keyLt a.key b.key = true)
      (slInsert nodes lvl key v h1 ts1).1 := by
  simp only [slInsert]
  rw [slDescend_eq_lb nodes key lvl hs]
  rw [List.get?_eq_getElem?]
  cases hg : nodes[nodes.countP fun n => keyLt n.key key]? with
  | none =>
    simp only []
    refine pairwise_insert_lb nodes key v ts1 (min h1 maxSkipLevel) hs ?_
    exact sorted_no_key_of_lb nodes key hs (by
      intro n hn
      rw [List.get?_eq_getElem?, hg] at hn
      cases hn)
  | some n =>
    simp only []
    by_cases hk : n.key = key
    · rw [if_pos hk]
      have hlen : nodes.countP (fun n => keyLt n.key key) < nodes.length := by
        by_contra hge
        rw [List.getElem?_eq_none (by omega)] at hg
        cases hg
      refine pairwise_set_samekey nodes _ _ hs hlen ?_
      have hne : nodes[nodes.countP fun n => keyLt n.key key] = n := by
        have h2 := List.getElem?_eq_getElem hlen
        rw [h2] at hg
        exact Option.some.inj hg
      rw [hne]
    · rw [if_neg hk]
      refine pairwise_insert_lb nodes key v ts1 (min h1 maxSkipLevel) hs ?_
      exact sorted_no_key_of_lb nodes key hs (by
        intro n2 hn2
        rw [List.get?_eq_getElem?, hg] at hn2
        rw [← Option.some.inj hn2]
        exact hk)

/-- Helper: the memtable-insert step commutes with erasure: running it with
the zero oracles on the erased state gives the erased result state. -/
theorem memInsert_erase (rand tsf : Nat → Nat) (s : EngineState) (key : Key)
    (v : Option Val) (hwf : memWF s) :
    memInsert zeroOracle zeroOracle (eraseState s) key v =
      eraseState (memInsert rand tsf s key v) := by
  have hins := slInsert_erase s.memNodes s.memLevel key v (rand s.randCtr)
    (tsf s.tsCtr) hwf
  simp only [memInsert, eraseState, zeroOracle]
  rw [hins]

/-- Helper: the memtable-insert step preserves the memtable invariant. -/
theorem memInsert_WF (rand tsf : Nat → Nat) (s : EngineState) (key : Key)
    (v : Option Val) (hwf : memWF s) : memWF (memInsert rand tsf s key v) := by
  simp only [memWF, memInsert]
  exact slInsert_WF s.memNodes s.memLevel key v _ _ hwf

/-- Helper: entry erasure keeps the key. -/
theorem eraseEntry_key (e : Entry) : (eraseEntry e).key = e.key := rfl

/-- Helper: entry erasure keeps the value. -/
theorem eraseEntry_value (e : Entry) : (eraseEntry e).value = e.value := rfl

/-- Helper: erasure commutes with the constructor's defensive sort (the
comparator reads only keys, which erasure keeps). -/
theorem sortEntries_map_erase (es : List Entry) :
    sortEntries (es.map eraseEntry) = (sortEntries es).map eraseEntry := by
  unfold sortEntries
  exact (List.map_insertionSort keyLE keyLE eraseEntry es
    (fun a _ b _ => Iff.rfl)).symm

/-- Helper: `getD` through entry erasure (the placeholder entry is its own
erasure). -/
theorem getD_map_entry (l : List Entry) (i : Nat) :
    (l.map eraseEntry).getD i dummyEntry = eraseEntry (l.getD i dummyEntry) :=
  getD_map_gen eraseEntry l i dummyEntry

/-- Helper: `getLastD` through entry erasure. -/
theorem getLastD_map_entry (l : List Entry) :
    (l.map eraseEntry).getLastD dummyEntry = eraseEntry (l.getLastD dummyEntry) :=
  List.getLastD_map eraseEntry l dummyEntry

/-- Helper: the bloom filter built by the constructor reads only keys and the
record count, both erasure-invariant. -/
theorem buildBloomFilter_map_erase (es : List Entry) :
    buildBloomFilter (es.map eraseEntry) = buildBloomFilter es := by
  unfold buildBloomFilter
  rw [List.foldl_map, List.length_map]
  rfl

/-- Helper: the sparse index reads only keys and positions, both
erasure-invariant. -/
theorem buildSparseIndex_map_erase (es : List Entry) (step : Nat) :
    buildSparseIndex (es.map eraseEntry) step = buildSparseIndex es step := by
  unfold buildSparseIndex
  rw [List.length_map]
  simp only [getD_map_entry, eraseEntry_key]

/-- Helper: the size computation reads only key lengths and serialized
values, both erasure-invariant. -/
theorem calculateSize_map_erase (es : List Entry) (bf : BloomFilter)
    (sidx : List (Key × Nat)) :
    calculateSize (es.map eraseEntry) bf sidx = calculateSize es bf sidx := by
  unfold calculateSize
  rw [List.foldl_map]
  rfl

/-- Helper: the SSTable constructor commutes with erasure: building from
erased records gives the erased table. -/
theorem mkSSTable_erase (id level : Nat) (es : List Entry) :
    mkSSTable id level (es.map eraseEntry) = eraseTable (mkSSTable id level es) := by
  simp only [mkSSTable, eraseTable, sortEntries_map_erase, buildBloomFilter_map_erase,
    calculateSize_map_erase, buildSparseIndex_map_erase]
  cases hse : sortEntries es with
  | nil => rfl
  | cons e t =>
    simp only [List.map_cons]
    rw [← List.map_cons eraseEntry e t, getLastD_map_entry]
    rfl

/-- Helper: table erasure keeps the stored key range. -/
theorem eraseTable_keyRange (t : SSTable) : (eraseTable t).keyRange = t.keyRange := rfl

/-- Helper: table erasure keeps the stored size. -/
theorem eraseTable_size (t : SSTable) : (eraseTable t).size = t.size := rfl

/-- Helper: table erasure keeps the record count. -/
theorem eraseTable_numEntries (t : SSTable) :
    (eraseTable t).entries.length = t.entries.length := by
  simp only [eraseTable]
  exact List.length_map _ _

/-- Helper: `find?` on the erased level list mirrors `find?` on the original
(the predicate reads only the level key). -/
theorem findLevel_erase (l : Nat) :
    ∀ L : List (Nat × List SSTable),
      (eraseLevels L).find? (fun p => p.1 = l) =
        (L.find? (fun p => p.1 = l)).map (fun p => (p.1, p.2.map eraseTable))
  | [] => rfl
  | p :: rest => by
    simp only [eraseLevels, List.map_cons]
    by_cases hp : p.1 = l
    · rw [List.find?_cons_of_pos _ (by simpa using hp),
        List.find?_cons_of_pos _ (by simpa using hp)]
      rfl
    · rw [List.find?_cons_of_neg _ (by simpa using hp),
        List.find?_cons_of_neg _ (by simpa using hp)]
      have h2 := findLevel_erase l rest
      simp only [eraseLevels] at h2
      exact h2

/-- Helper: reading a level of the erased manager gives the erased tables. -/
theorem getLevel_erase (m : SSTableManager) (l : Nat) :
    (eraseMgr m).getLevel l = (m.getLevel l).map eraseTable := by
  simp only [SSTableManager.getLevel, eraseMgr]
  rw [findLevel_erase]
  cases m.levels.find? (fun p => p.1 = l) <;> rfl

/-- Helper: `Map.set` on the level list commutes with erasure. -/
theorem setLevelAssoc_erase (L : List (Nat × List SSTable)) (l : Nat)
    (ts : List SSTable) :
    eraseLevels (setLevelAssoc L l ts) =
      setLevelAssoc (eraseLevels L) l (ts.map eraseTable) := by
  simp only [setLevelAssoc, eraseLevels, List.any_map]
  have hany : (L.any ((fun p => decide (p.1 = l)) ∘
      (fun p : Nat × List SSTable => (p.1, p.2.map eraseTable)))) =
      L.any (fun p => decide (p.1 = l)) := rfl
  rw [hany]
  by_cases ha : L.any (fun p => decide (p.1 = l)) = true
  · rw [if_pos ha, if_pos ha, List.map_map, List.map_map]
    refine List.map_congr_left ?_
    intro p _
    by_cases hp : p.1 = l
    · simp only [Function.comp_apply, if_pos hp]
    · simp only [Function.comp_apply, if_neg hp]
  · rw [if_neg ha, if_neg ha, List.map_append]
    rfl

/-- Helper: pushing a table onto a level commutes with erasure. -/
theorem addSSTable_erase (m : SSTableManager) (l : Nat) (t : SSTable) :
    eraseMgr (m.addSSTable l t) = (eraseMgr m).addSSTable l (eraseTable t) := by
  simp only [SSTableManager.addSSTable, eraseMgr]
  have hgl : (SSTableManager.mk (eraseLevels m.levels) m.nextId).getLevel l =
      (m.getLevel l).map eraseTable := getLevel_erase m l
  rw [hgl, setLevelAssoc_erase, List.map_append]
  rfl

/-- Helper: clearing a level commutes with erasure. -/
theorem clearLevel_erase (m : SSTableManager) (l : Nat) :
    eraseMgr (m.clearLevel l) = (eraseMgr m).clearLevel l := by
  simp only [SSTableManager.clearLevel, eraseMgr]
  rw [setLevelAssoc_erase]
  rfl

/-- Helper: allocating and inserting a fresh table commutes with erasure. -/
theorem createSSTable_erase (m : SSTableManager) (l : Nat) (es : List Entry) :
    eraseMgr (m.createSSTable l es).2 =
      ((eraseMgr m).createSSTable l (es.map eraseEntry)).2 := by
  simp only [SSTableManager.createSSTable, eraseMgr]
  have hmk : mkSSTable m.nextId l (es.map eraseEntry) =
      eraseTable (mkSSTable m.nextId l es) := mkSSTable_erase m.nextId l es
  rw [hmk]
  have hadd := addSSTable_erase { m with nextId := m.nextId + 1 } l
    (mkSSTable m.nextId l es)
  simp only [eraseMgr] at hadd
  exact hadd

/-- Helper: re-inserting a run of tables commutes with erasure. -/
theorem foldl_add_erase (l : Nat) :
    ∀ (ts : List SSTable) (m : SSTableManager),
      eraseMgr (ts.foldl (fun m t => m.addSSTable l t) m) =
        (ts.map eraseTable).foldl (fun m t => m.addSSTable l t) (eraseMgr m)
  | [], m => rfl
  | t :: rest, m => by
    simp only [List.foldl_cons, List.map_cons]
    rw [foldl_add_erase l rest (m.addSSTable l t), addSSTable_erase]

/-- Helper: binary search is blind to entry erasure (it reads keys and
returns values, both preserved). -/
theorem binarySearchGo_map_erase (es : List Entry) (key : Key) :
    ∀ (fuel : Nat) (left right : Int),
      binarySearchGo (es.map eraseEntry) key fuel left right =
        binarySearchGo es key fuel left right
  | 0, _, _ => rfl
  | fuel + 1, left, right => by
    simp only [binarySearchGo, getD_map_entry, eraseEntry_key, eraseEntry_value,
      binarySearchGo_map_erase es key fuel]

/-- Helper: a table's point lookup is blind to erasure (bloom filter, sparse
index and key range are stored unchanged; the record list keeps keys and
values). -/
theorem get_erase (t : SSTable) (key : Key) :
    (eraseTable t).get key = t.get key := by
  simp only [SSTable.get, eraseTable, binarySearch, List.length_map,
    binarySearchGo_map_erase]

/-- Helper: the range check is blind to erasure. -/
theorem containsKeyInRange_erase (t : SSTable) (key : Key) :
    (eraseTable t).containsKeyInRange key = t.containsKeyInRange key := rfl

/-- Helper: a level scan is blind to table erasure. -/
theorem searchLevelTables_erase (key : Key) (level : Nat) :
    ∀ ts : List SSTable,
      searchLevelTables key level (ts.map eraseTable) = searchLevelTables key level ts
  | [] => rfl
  | t :: rest => by
    simp only [searchLevelTables, containsKeyInRange_erase, get_erase,
      searchLevelTables_erase key level rest]

/-- Helper: the level-by-level search is blind to manager erasure. -/
theorem searchLevels_erase (m : SSTableManager) (key : Key) :
    ∀ ls : List Nat, searchLevels (eraseMgr m) key ls = searchLevels m key ls
  | [] => rfl
  | l :: rest => by
    simp only [searchLevels, getLevel_erase, searchLevelTables_erase,
      searchLevels_erase m key rest]

/-- Helper: the manager search is blind to erasure (erasure keeps the level
keys, so the sorted level order is identical). -/
theorem mgrSearch_erase (m : SSTableManager) (key : Key) :
    (eraseMgr m).search key = m.search key := by
  simp only [SSTableManager.search, eraseMgr, eraseLevels, List.map_map]
  have hfst : (m.levels.map (Prod.fst ∘ fun p : Nat × List SSTable =>
      (p.1, p.2.map eraseTable))) = m.levels.map Prod.fst := rfl
  rw [hfst]
  have h2 := searchLevels_erase m key
    (List.insertionSort (fun a b => a ≤ b) (m.levels.map Prod.fst))
  simp only [eraseMgr, eraseLevels] at h2
  exact h2

/-- Helper: `LSMTree.get` is blind to state erasure on a well-formed
memtable. -/
theorem lsmGet_erase (s : EngineState) (key : Key) (hwf : memWF s) :
    lsmGet (eraseState s) key = lsmGet s key := by
  simp only [lsmGet, eraseState]
  rw [slSearch_erase s.memNodes s.memLevel 0 key hwf]
  have h2 := mgrSearch_erase s.mgr key
  rw [h2]

/-- Helper: heap-element erasure keeps the key. -/
theorem eraseElem_key (e : HeapElem) : (eraseElem e).key = e.key := rfl

/-- Helper: heap-element erasure keeps the value. -/
theorem eraseElem_value (e : HeapElem) : (eraseElem e).value = e.value := rfl

/-- Helper: heap-element erasure keeps the iterator index. -/
theorem eraseElem_iterIdx (e : HeapElem) : (eraseElem e).iterIdx = e.iterIdx := rfl

/-- Helper: `getD` through heap-element erasure. -/
theorem getD_map_elem (l : List HeapElem) (i : Nat) :
    (l.map eraseElem).getD i dummyElem = eraseElem (l.getD i dummyElem) :=
  getD_map_gen eraseElem l i dummyElem

/-- Helper: `getLastD` through heap-element erasure. -/
theorem getLastD_map_elem (l : List HeapElem) :
    (l.map eraseElem).getLastD dummyElem = eraseElem (l.getLastD dummyElem) :=
  List.getLastD_map eraseElem l dummyElem

/-- Helper: `isEmpty` through `map`. -/
theorem isEmpty_map_gen {α β : Type} (f : α → β) (l : List α) :
    (l.map f).isEmpty = l.isEmpty := by
  cases l <;> rfl

/-- Helper: a heap swap commutes with element erasure. -/
theorem heapSwap_erase (h : List HeapElem) (i j : Nat) :
    heapSwap (h.map eraseElem) i j = (heapSwap h i j).map eraseElem := by
  simp only [heapSwap, getD_map_elem, List.set_map]

/-- Helper: the bubble-up pass commutes with element erasure (it compares
keys only). -/
theorem bubbleUpGo_erase :
    ∀ (fuel : Nat) (heap : List HeapElem) (index : Nat),
      bubbleUpGo fuel (heap.map eraseElem) index =
        (bubbleUpGo fuel heap index).map eraseElem
  | 0, _, _ => rfl
  | fuel + 1, heap, index => by
    simp only [bubbleUpGo, getD_map_elem, eraseElem_key, heapSwap_erase,
      bubbleUpGo_erase fuel]
    split_ifs <;> rfl

/-- Helper: a heap push commutes with element erasure. -/
theorem heapInsert_erase (h : List HeapElem) (e : HeapElem) :
    heapInsert (h.map eraseElem) (eraseElem e) = (heapInsert h e).map eraseElem := by
  simp only [heapInsert, List.length_map]
  have hme : (List.map eraseElem h ++ [eraseElem e]) = (h ++ [e]).map eraseElem := by
    rw [List.map_append]
    rfl
  rw [hme]
  exact bubbleUpGo_erase (h.length + 2) (h ++ [e]) h.length

/-- Helper: the bubble-down pass commutes with element erasure. -/
theorem bubbleDownGo_erase :
    ∀ (fuel : Nat) (heap : List HeapElem) (index : Nat),
      bubbleDownGo fuel (heap.map eraseElem) index =
        (bubbleDownGo fuel heap index).map eraseElem
  | 0, _, _ => rfl
  | fuel + 1, heap, index => by
    simp only [bubbleDownGo, List.length_map, getD_map_elem, eraseElem_key,
      heapSwap_erase, bubbleDownGo_erase fuel]
    split_ifs <;> rfl

/-- Helper: the heap pop commutes with element erasure. -/
theorem extractMin_erase (h : List HeapElem) :
    extractMin (h.map eraseElem) =
      (Option.map eraseElem (extractMin h).1, (extractMin h).2.map eraseElem) := by
  match h with
  | [] => rfl
  | [e] => rfl
  | e1 :: e2 :: rest =>
    show extractMin (eraseElem e1 :: eraseElem e2 :: rest.map eraseElem) = _
    simp only [extractMin]
    rw [show (eraseElem e1 :: eraseElem e2 :: rest.map eraseElem) =
        (e1 :: e2 :: rest).map eraseElem from rfl]
    rw [getLastD_map_elem, ← List.map_dropLast, List.set_map, List.length_map]
    rw [bubbleDownGo_erase]
    rfl

/-- Helper: the emission step commutes with erasure (it compares keys and
tombstone flags, both preserved). -/
theorem kwEmit_erase (st : MergeLoopState) (mn : HeapElem) (heap2 : List HeapElem) :
    kwEmit (eraseMergeState st) (eraseElem mn) (heap2.map eraseElem) =
      eraseMergeState (kwEmit st mn heap2) := by
  simp only [kwEmit, eraseMergeState, eraseElem_key, eraseElem_value]
  by_cases hlk : st.lastKey ≠ some mn.key
  · rw [if_pos hlk, if_pos hlk]
    by_cases hv : mn.value ≠ none
    · rw [if_pos hv, if_pos hv]
      rw [List.map_append]
      rfl
    · rw [if_neg hv, if_neg hv]
  · rw [if_neg hlk, if_neg hlk]

/-- Helper: entry erasure zeroes the timestamp. -/
theorem eraseEntry_timestamp (e : Entry) : (eraseEntry e).timestamp = 0 := rfl

/-- Helper: iterator erasure keeps the table id. -/
theorem eraseIter_sstableId (it : KIter) : (eraseIter it).sstableId = it.sstableId := rfl

/-- Helper: iterator erasure keeps the cursor. -/
theorem eraseIter_currentIndex (it : KIter) :
    (eraseIter it).currentIndex = it.currentIndex := rfl

/-- Helper: iterator erasure erases the record list. -/
theorem eraseIter_entries (it : KIter) :
    (eraseIter it).entries = it.entries.map eraseEntry := rfl

/-- Helper: the iterator-advance step commutes with erasure (it reads the
preserved iterator index, the preserved cursor and entry count, and pushes an
element whose ordering fields are preserved). -/
theorem kwAdvance_erase (E : MergeLoopState) (mn : HeapElem) :
    kwAdvance (eraseMergeState E) (eraseElem mn) =
      (kwAdvance E mn).map eraseMergeState := by
  simp only [kwAdvance, eraseMergeState, eraseElem_iterIdx]
  rw [List.get?_eq_getElem?, List.get?_eq_getElem?, List.getElem?_map]
  cases hg : E.iters[mn.iterIdx]? with
  | none => rfl
  | some it =>
    simp only [Option.map_some', eraseIter_sstableId, eraseIter_currentIndex,
      eraseIter_entries, List.length_map, getD_map_entry, eraseEntry_key,
      eraseEntry_value, eraseEntry_timestamp]
    have hit2 :
        ({ sstableId := it.sstableId, entries := List.map eraseEntry it.entries,
           currentIndex := it.currentIndex + 1 } : KIter) =
          eraseIter { sstableId := it.sstableId, entries := it.entries,
                      currentIndex := it.currentIndex + 1 } := rfl
    by_cases hc : it.currentIndex + 1 < it.entries.length
    · rw [if_pos hc, if_pos hc]
      have helem :
          ({ key := (it.entries.getD (it.currentIndex + 1) dummyEntry).key,
             value := (it.entries.getD (it.currentIndex + 1) dummyEntry).value,
             timestamp := 0, iterIdx := mn.iterIdx } : HeapElem) =
            eraseElem
              { key := (it.entries.getD (it.currentIndex + 1) dummyEntry).key,
                value := (it.entries.getD (it.currentIndex + 1) dummyEntry).value,
                timestamp := (it.entries.getD (it.currentIndex + 1) dummyEntry).timestamp,
                iterIdx := mn.iterIdx } := rfl
      rw [helem, heapInsert_erase, hit2, List.set_map]
      rfl
    · rw [if_neg hc, if_neg hc]
      rw [hit2, List.set_map]
      rfl

/-- Helper: the extraction loop commutes with erasure: on the erased state it
returns the erased merged records and the same duplicate count. -/
theorem kwLoop_erase :
    ∀ (fuel : Nat) (st : MergeLoopState),
      kwLoop fuel (eraseMergeState st) =
        (kwLoop fuel st).map (fun r => (r.1.map eraseEntry, r.2))
  | 0, st => by
    simp only [kwLoop, eraseMergeState, isEmpty_map_gen]
    by_cases hh : st.heap.isEmpty
    · rw [if_pos hh, if_pos hh]
      rfl
    · rw [if_neg hh, if_neg hh]
      rfl
  | fuel + 1, st => by
    have hex : extractMin ((eraseMergeState st).heap) =
        (Option.map eraseElem (extractMin st.heap).1,
          (extractMin st.heap).2.map eraseElem) := extractMin_erase st.heap
    simp only [kwLoop]
    rw [hex]
    cases hx : extractMin st.heap with
    | mk mnO heap2 =>
      cases mnO with
      | none => rfl
      | some mn =>
        simp only [Option.map_some']
        have hadv := kwAdvance_erase (kwEmit st mn heap2) mn
        rw [kwEmit_erase st mn heap2, hadv]
        cases kwAdvance (kwEmit st mn heap2) mn with
        | none => rfl
        | some st2 =>
          simp only [Option.map_some']
          exact kwLoop_erase fuel st2

/-- Helper: one step of the merge-init fold commutes with erasure. -/
theorem kwInitStep_erase (acc : List KIter × List HeapElem) (p : Nat × SSTable) :
    kwInitStep (acc.1.map eraseIter, acc.2.map eraseElem) (p.1, eraseTable p.2) =
      ((kwInitStep acc p).1.map eraseIter, (kwInitStep acc p).2.map eraseElem) := by
  simp only [kwInitStep, SSTable.getAllEntries, eraseTable]
  cases he : p.2.entries with
  | nil => rfl
  | cons e t =>
    simp only [List.map_cons]
    rw [List.map_append]
    have helem : (⟨(eraseEntry e).key, (eraseEntry e).value, (eraseEntry e).timestamp,
        p.1⟩ : HeapElem) = eraseElem ⟨e.key, e.value, e.timestamp, p.1⟩ := rfl
    rw [helem, heapInsert_erase]
    rfl

/-- Helper: the merge-init fold commutes with erasure, from any
accumulator. -/
theorem kwInit_foldl_erase :
    ∀ (l : List (Nat × SSTable)) (acc : List KIter × List HeapElem),
      l.foldl (fun a p => kwInitStep a (Prod.map id eraseTable p))
          (acc.1.map eraseIter, acc.2.map eraseElem) =
        ((l.foldl kwInitStep acc).1.map eraseIter,
          (l.foldl kwInitStep acc).2.map eraseElem)
  | [], _ => rfl
  | p :: rest, acc => by
    simp only [List.foldl_cons]
    rw [show Prod.map id eraseTable p = (p.1, eraseTable p.2) from rfl,
      kwInitStep_erase acc p]
    exact kwInit_foldl_erase rest (kwInitStep acc p)

/-- Helper: merge initialization commutes with table erasure. -/
theorem kwInit_erase (ts : List SSTable) :
    kwInit (ts.map eraseTable) =
      ((kwInit ts).1.map eraseIter, (kwInit ts).2.map eraseElem) := by
  unfold kwInit
  rw [List.enum_map, List.foldl_map]
  exact kwInit_foldl_erase ts.enum ([], [])

/-- Helper: the total input record count is blind to table erasure. -/
theorem foldl_len_erase (ts : List SSTable) (a : Nat) :
    (ts.map eraseTable).foldl (fun a t => a + t.entries.length) a =
      ts.foldl (fun a t => a + t.entries.length) a := by
  rw [List.foldl_map]
  refine List.foldl_ext _ _ a ?_
  intro b t _
  simp only [eraseTable]
  rw [List.length_map]

/-- Helper: the total input byte count is blind to table erasure. -/
theorem foldl_size_erase (ts : List SSTable) (a : Nat) :
    (ts.map eraseTable).foldl (fun a t => a + t.size) a =
      ts.foldl (fun a t => a + t.size) a := by
  rw [List.foldl_map]
  rfl

/-- Helper: the k-way merge commutes with erasure: the merged records are
erased, all counts agree, and it fails on the erased input exactly when it
fails on the original. -/
theorem kWayMerge_erase (ts : List SSTable) :
    kWayMerge (ts.map eraseTable) =
      (kWayMerge ts).map (fun o => { o with entries := o.entries.map eraseEntry }) := by
  simp only [kWayMerge, kwInit_erase, List.length_map, foldl_len_erase]
  have hst :
      ({ heap := List.map eraseElem (kwInit ts).2,
         iters := List.map eraseIter (kwInit ts).1,
         merged := [], lastKey := none, dups := 0 } : MergeLoopState) =
        eraseMergeState
          { heap := (kwInit ts).2, iters := (kwInit ts).1,
            merged := [], lastKey := none, dups := 0 } := rfl
  rw [hst, kwLoop_erase]
  cases hkl : kwLoop (ts.foldl (fun a t => a + t.entries.length) 0 + 1)
      { heap := (kwInit ts).2, iters := (kwInit ts).1, merged := [],
        lastKey := none, dups := 0 } with
  | none => rfl
  | some r => rfl

/-- Helper: the overlap test is blind to table erasure (key ranges are stored
unchanged). -/
theorem overlapsAny_erase (src : List SSTable) (t : SSTable) :
    overlapsAny (src.map eraseTable) (eraseTable t) = overlapsAny src t := by
  simp only [overlapsAny, List.any_map]
  rfl

/-- Helper: overlapping-table selection commutes with erasure. -/
theorem findOverlapping_erase (src tgt : List SSTable) :
    findOverlappingSSTables (src.map eraseTable) (tgt.map eraseTable) =
      (findOverlappingSSTables src tgt).map eraseTable := by
  simp only [findOverlappingSSTables]
  rw [List.filter_map]
  refine congrArg _ (List.filter_congr ?_)
  intro t _
  exact overlapsAny_erase src t

/-- Helper: the non-overlapping remainder of the target level commutes with
erasure. -/
theorem remaining_erase (src tgt : List SSTable) :
    (tgt.map eraseTable).filter
        (fun t => ¬ overlapsAny (src.map eraseTable) t = true) =
      (tgt.filter (fun t => ¬ overlapsAny src t = true)).map eraseTable := by
  rw [List.filter_map]
  refine congrArg _ (List.filter_congr ?_)
  intro t _
  simp only [Function.comp_apply, overlapsAny_erase]

/-- Helper: the compaction trigger is blind to erasure (per-level counts are
preserved). -/
theorem shouldCompact_erase (m : SSTableManager) (l : Nat) :
    shouldCompact (eraseMgr m) l = shouldCompact m l := by
  simp only [shouldCompact, getLevel_erase, List.length_map]

/-- Helper: one compaction commutes with erasure: on the erased manager it
fails exactly when the original fails, and on success it produces the erased
manager, the same counters and history, and the same outcome record. -/
theorem compactLevel_erase (m : SSTableManager) (cs : CompactionState)
    (sl tl : Nat) :
    compactLevel (eraseMgr m) cs sl tl =
      (compactLevel m cs sl tl).map (fun r => (eraseMgr r.1, r.2.1, r.2.2)) := by
  simp only [compactLevel, getLevel_erase, isEmpty_map_gen]
  by_cases he : (m.getLevel sl).isEmpty
  · rw [if_pos he, if_pos he]
    rfl
  · rw [if_neg he, if_neg he]
    rw [findOverlapping_erase, ← List.map_append, kWayMerge_erase]
    cases hkm : kWayMerge (m.getLevel sl ++
        findOverlappingSSTables (m.getLevel sl) (m.getLevel tl)) with
    | none => rfl
    | some mr =>
      simp only [Option.map_some', List.length_map, foldl_size_erase,
        remaining_erase]
      rw [show (eraseMgr m).clearLevel sl = eraseMgr (m.clearLevel sl) from
        (clearLevel_erase m sl).symm]
      rw [show (eraseMgr (m.clearLevel sl)).clearLevel tl =
        eraseMgr ((m.clearLevel sl).clearLevel tl) from
        (clearLevel_erase (m.clearLevel sl) tl).symm]
      rw [createSSTable_erase, foldl_add_erase]

/-- Helper: the auto-compaction loop commutes with erasure, from any level
list. -/
theorem runAutoGo_erase :
    ∀ (ls : List Nat) (m : SSTableManager) (cs : CompactionState),
      runAutoGo ls (eraseMgr m, cs) =
        (runAutoGo ls (m, cs)).map (fun p => (eraseMgr p.1, p.2))
  | [], _, _ => rfl
  | l :: rest, m, cs => by
    simp only [runAutoGo, shouldCompact_erase]
    by_cases hsc : shouldCompact m l = true
    · rw [if_pos hsc, if_pos hsc, compactLevel_erase]
      cases compactLevel m cs l (l + 1) with
      | none => rfl
      | some r =>
        simp only [Option.map_some']
        exact runAutoGo_erase rest r.1 r.2.1
    · rw [if_neg hsc, if_neg hsc]
      exact runAutoGo_erase rest m cs

/-- Helper: auto-compaction commutes with erasure. -/
theorem runAutoCompaction_erase (m : SSTableManager) (cs : CompactionState) :
    runAutoCompaction (eraseMgr m, cs) =
      (runAutoCompaction (m, cs)).map (fun p => (eraseMgr p.1, p.2)) :=
  runAutoGo_erase [0, 1, 2] m cs

/-- Helper: the flush snapshot reads keys and values only. -/
theorem slGetAllEntries_erase (nodes : List SLNode) :
    slGetAllEntries (nodes.map eraseNode) = (slGetAllEntries nodes).map eraseEntry := by
  simp only [slGetAllEntries, List.map_map]
  rfl

/-- Helper: the flush commutes with state erasure. -/
theorem flushMemtable_erase (s : EngineState) :
    flushMemtable (eraseState s) = eraseState (flushMemtable s) := by
  simp only [flushMemtable, eraseState, isEmpty_map_gen, List.map_nil]
  by_cases he : s.memNodes.isEmpty
  · rw [if_pos he, if_pos he]
  · rw [if_neg he, if_neg he]
    rw [slGetAllEntries_erase, createSSTable_erase]
    rfl

/-- Helper: the flush preserves the memtable invariant. -/
theorem flushMemtable_WF (s : EngineState) (hwf : memWF s) :
    memWF (flushMemtable s) := by
  simp only [flushMemtable, memWF]
  by_cases he : s.memNodes.isEmpty
  · rw [if_pos he]
    exact hwf
  · rw [if_neg he]
    exact List.Pairwise.nil

/-- Helper: the insert-then-maybe-flush prefix of `put` commutes with state
erasure. -/
theorem putPre_erase (rand tsf : Nat → Nat) (s : EngineState) (key : Key)
    (v : Val) (hwf : memWF s) :
    putPre zeroOracle zeroOracle (eraseState s) key v =
      eraseState (putPre rand tsf s key v) := by
  simp only [putPre]
  rw [memInsert_erase rand tsf s key (some v) hwf]
  simp only [eraseState, List.length_map]
  by_cases hth : (memInsert rand tsf s key (some v)).memNodes.length ≥
      (memInsert rand tsf s key (some v)).memtableThreshold
  · rw [if_pos hth, if_pos hth]
    have h2 := flushMemtable_erase (memInsert rand tsf s key (some v))
    simp only [eraseState] at h2
    exact h2
  · rw [if_neg hth, if_neg hth]

/-- Helper: the insert-then-maybe-flush prefix of `put` preserves the
memtable invariant. -/
theorem putPre_WF (rand tsf : Nat → Nat) (s : EngineState) (key : Key)
    (v : Val) (hwf : memWF s) : memWF (putPre rand tsf s key v) := by
  simp only [putPre]
  by_cases hth : (memInsert rand tsf s key (some v)).memNodes.length ≥
      (memInsert rand tsf s key (some v)).memtableThreshold
  · rw [if_pos hth]
    exact flushMemtable_WF _ (memInsert_WF rand tsf s key (some v) hwf)
  · rw [if_neg hth]
    exact memInsert_WF rand tsf s key (some v) hwf

/-- Helper: `put` commutes with state erasure. -/
theorem lsmPut_erase (rand tsf : Nat → Nat) (s : EngineState) (key : Key)
    (v : Val) (hwf : memWF s) :
    lsmPut zeroOracle zeroOracle (eraseState s) key v =
      (lsmPut rand tsf s key v).map eraseState := by
  simp only [lsmPut]
  rw [putPre_erase rand tsf s key v hwf]
  simp only [eraseState]
  rw [runAutoCompaction_erase]
  cases hrac : runAutoCompaction ((putPre rand tsf s key v).mgr,
      (putPre rand tsf s key v).comp) with
  | none => rfl
  | some p =>
    cases p with
    | mk mgr2 cs2 =>
      simp only [Option.map_some']
      rfl

/-- Helper: `delete` commutes with state erasure. -/
theorem lsmDelete_erase (rand tsf : Nat → Nat) (s : EngineState) (key : Key)
    (hwf : memWF s) :
    lsmDelete zeroOracle zeroOracle (eraseState s) key =
      eraseState (lsmDelete rand tsf s key) := by
  simp only [lsmDelete]
  rw [memInsert_erase rand tsf s key none hwf]
  simp only [eraseState, List.length_map]
  by_cases hth : (memInsert rand tsf s key none).memNodes.length ≥
      (memInsert rand tsf s key none).memtableThreshold
  · rw [if_pos hth, if_pos hth]
    have h2 := flushMemtable_erase (memInsert rand tsf s key none)
    simp only [eraseState] at h2
    exact h2
  · rw [if_neg hth, if_neg hth]

/-- Helper: `delete` preserves the memtable invariant. -/
theorem lsmDelete_WF (rand tsf : Nat → Nat) (s : EngineState) (key : Key)
    (hwf : memWF s) : memWF (lsmDelete rand tsf s key) := by
  simp only [lsmDelete]
  by_cases hth : (memInsert rand tsf s key none).memNodes.length ≥
      (memInsert rand tsf s key none).memtableThreshold
  · rw [if_pos hth]
    exact flushMemtable_WF _ (memInsert_WF rand tsf s key none hwf)
  · rw [if_neg hth]
    exact memInsert_WF rand tsf s key none hwf

/-- Helper: manual compaction commutes with state erasure. -/
theorem lsmCompact_erase (s : EngineState) (sl tl : Nat) :
    lsmCompact (eraseState s) sl tl = (lsmCompact s sl tl).map eraseState := by
  simp only [lsmCompact, eraseState]
  rw [compactLevel_erase]
  cases compactLevel s.mgr s.comp sl tl with
  | none => rfl
  | some r =>
    cases r with
    | mk m2 r2 =>
      cases r2 with
      | mk c2 o2 => rfl

/-- Helper: `clear` commutes with state erasure. -/
theorem lsmClear_erase (s : EngineState) :
    lsmClear (eraseState s) = eraseState (lsmClear s) := rfl

/-- Helper: one engine step commutes with state erasure: the zero-oracle step
from the erased state succeeds exactly when the original step does, produces
the erased result state, and emits the identical observation. -/
theorem stepOp_erase (rand tsf : Nat → Nat) (s : EngineState) (op : Op)
    (hwf : memWF s) :
    stepOp zeroOracle zeroOracle (eraseState s) op =
      (stepOp rand tsf s op).map (fun p => (eraseState p.1, p.2)) := by
  cases op with
  | putOp k v =>
    simp only [stepOp]
    rw [lsmPut_erase rand tsf s k v hwf]
    cases lsmPut rand tsf s k v <;> rfl
  | getOp k =>
    simp only [stepOp]
    rw [lsmGet_erase s k hwf]
    rfl
  | delOp k =>
    simp only [stepOp]
    rw [lsmDelete_erase rand tsf s k hwf]
    rfl
  | compactOp l =>
    simp only [stepOp]
    rw [lsmCompact_erase s l (l + 1)]
    cases lsmCompact s l (l + 1) <;> rfl
  | clearOp =>
    simp only [stepOp]
    rw [lsmClear_erase s]
    rfl

/-- Helper: every successful engine step preserves the memtable invariant. -/
theorem stepOp_WF (rand tsf : Nat → Nat) (s : EngineState) (op : Op)
    (s2 : EngineState) (obs : Option LsmGetResult)
    (h : stepOp rand tsf s op = some (s2, obs)) (hwf : memWF s) : memWF s2 := by
  cases op with
  | putOp k v =>
    simp only [stepOp, lsmPut] at h
    cases hrac : runAutoCompaction ((putPre rand tsf s k v).mgr,
        (putPre rand tsf s k v).comp) with
    | none =>
      rw [hrac] at h
      cases h
    | some p =>
      rw [hrac] at h
      cases p with
      | mk mgr2 cs2 =>
        simp only [Option.map_some', Option.some.injEq, Prod.mk.injEq] at h
        rw [← h.1]
        exact putPre_WF rand tsf s k v hwf
  | getOp k =>
    simp only [stepOp, Option.some.injEq, Prod.mk.injEq] at h
    rw [← h.1]
    exact hwf
  | delOp k =>
    simp only [stepOp, Option.some.injEq, Prod.mk.injEq] at h
    rw [← h.1]
    exact lsmDelete_WF rand tsf s k hwf
  | compactOp l =>
    simp only [stepOp, lsmCompact] at h
    cases hcl : compactLevel s.mgr s.comp l (l + 1) with
    | none =>
      rw [hcl] at h
      cases h
    | some r =>
      rw [hcl] at h
      cases r with
      | mk m2 r2 =>
        cases r2 with
        | mk c2 o2 =>
          simp only [Option.map_some', Option.some.injEq, Prod.mk.injEq] at h
          rw [← h.1]
          exact hwf
  | clearOp =>
    simp only [stepOp, Option.some.injEq, Prod.mk.injEq] at h
    rw [← h.1]
    exact List.Pairwise.nil

/-- Helper: the observable trace of any run equals the zero-oracle trace from
the erased state. -/
theorem runObs_erase (rand tsf : Nat → Nat) :
    ∀ (ops : List Op) (s : EngineState), memWF s →
      runObs zeroOracle zeroOracle ops (eraseState s) = runObs rand tsf ops s
  | [], _, _ => rfl
  | op :: rest, s, hwf => by
    simp only [runObs]
    rw [stepOp_erase rand tsf s op hwf]
    cases hst : stepOp rand tsf s op with
    | none => rfl
    | some p =>
      cases p with
      | mk s2 obs =>
        simp only [Option.map_some']
        rw [runObs_erase rand tsf rest s2 (stepOp_WF rand tsf s op s2 obs hst hwf)]

/-- C10. Determinism of observable results: for every fixed operation
sequence and every flush threshold, the observable trace — the found flag and
value of every `get`, in order — is identical across any two runs, for every
choice of the random-level oracle and of the wall-clock oracle. The proof
factors every run through the erased state (timestamps and node heights
blanked): each engine step commutes with erasure, searches and merges read
only erasure-invariant data, and the skip-list descent lands on the key lower
bound regardless of node heights. -/
theorem c10_determinism (ops : List Op) (r1 t1 r2 t2 : Nat → Nat) (th : Nat) :
    runObs r1 t1 ops (initState th) = runObs r2 t2 ops (initState th) := by
  have h1 := runObs_erase r1 t1 ops (initState th) List.Pairwise.nil
  have h2 := runObs_erase r2 t2 ops (initState th) List.Pairwise.nil
  rw [← h1, ← h2]

/-- C7, witness: the lookup-correctness theorem applied to a concrete
two-record table and one of its keys. -/
theorem c7_sstable_get_correct_witness :
    (mkSSTable 1 0 [⟨"b", some "2", 1⟩, ⟨"a", some "1", 0⟩] =
      mkSSTable 1 0 [⟨"b", some "2", 1⟩, ⟨"a", some "1", 0⟩]) ∧
    ((mkSSTable 1 0 [⟨"b", some "2", 1⟩, ⟨"a", some "1", 0⟩]).entries.map
      Entry.key).Nodup ∧
    (((mkSSTable 1 0 [⟨"b", some "2", 1⟩, ⟨"a", some "1", 0⟩]).get "a").found = true ↔
      "a" ∈ (mkSSTable 1 0 [⟨"b", some "2", 1⟩, ⟨"a", some "1", 0⟩]).entries.map
        Entry.key) :=
  ⟨rfl, by decide,
    (c7_sstable_get_correct (mkSSTable 1 0 [⟨"b", some "2", 1⟩, ⟨"a", some "1", 0⟩])
      1 0 [⟨"b", some "2", 1⟩, ⟨"a", some "1", 0⟩] "a" rfl (by decide)).1⟩

end LSM
